import Mathlib

/-!
Verification development for the pywnxml WordNet query engine.

This file gives a shallow embedding of the graph store and the
traversal / similarity algorithms of `WNQuery.py` (with the entity
records of `synset.py`), and proves properties of the embedded code.

Python dictionaries are modelled as insertion-ordered association
lists (`alookup` returns the first binding, new keys are appended at
the end, exactly as CPython dicts behave).  Python exceptions are
modelled by the `PyErr` type and `Except`.  The unbounded recursive
walks of the source are modelled with an explicit fuel parameter;
termination statements are expressed as fuel-independence of the
result.  Lines written to the log are modelled by the `Warning` type.
-/

namespace WNV

/-- `Synonym` record from `synset.py`: a word form with its sense
number (kept as a string, as in the source) plus inert notes. -/
structure Synonym where
  literal : String
  sense : String
  lnote : String := ""
  nucleus : String := ""
deriving DecidableEq

/-- `Synset` record from `synset.py`, restricted to the fields the
graph core reads: id, part of speech, definition, the
`(target-id, relation-type)` pointer list `ilrs` and the synonym
list.  The remaining fields are inert metadata never interpreted by
the algorithms embedded here. -/
structure Synset where
  wnid : String := ""
  pos : String := ""
  definition : String := ""
  ilrs : List (String × String) := []
  synonyms : List Synonym := []
deriving DecidableEq

/-- `Synset.empty` from `synset.py`: a synset is empty iff its id is
the empty string. -/
def Synset.isEmptySyn (s : Synset) : Bool :=
  s.wnid = ""

/-- First-match lookup in an association list; models `d[k]` /
`k in d` on a Python dict whose bindings are kept in insertion
order. -/
def alookup {α : Type} : List (String × α) → String → Option α
  | [], _ => none
  | p :: rest, k => if p.1 = k then some p.2 else alookup rest k

/-- The Python exceptions that the embedded code can raise. -/
inductive PyErr where
  | invalidPOS (msg : String)
  | indexError
  | wnQueryError (msg : String)
  | valueError
deriving DecidableEq

/-- Log lines produced while loading / inverting (`self.log` writes):
W01 duplicate id, W02 invalid POS, W03 missing inversion target,
W04 self-referencing relation, plus the informational lines. -/
inductive Warning where
  | w01 (wnid : String) (line : Nat)
  | w02 (msg : String) (line : Nat)
  | w03 (target rel source : String)
  | w04 (invr wnid : String)
  | addedInv (source invr target : String)
  | invertingPos (posname : String)
deriving DecidableEq

/-- Models `"Invalid POS '{i}'".format(pos)`: a positional placeholder
is looked up in the argument tuple; an out-of-range index raises
`IndexError` (this is what happens in `WNQuery.idx`, whose message
uses `{1}` with a single argument). -/
def pyFormatPOS (i : Nat) (args : List String) : Except PyErr String :=
  match args.get? i with
  | some s => .ok ("Invalid POS '" ++ s ++ "'")
  | none => .error .indexError

/-- A per-POS synset map (Python `dict` keyed by synset id). -/
abbrev Store := List (String × Synset)

/-- A per-POS literal index (Python `defaultdict(list)` keyed by
literal, values are id lists). -/
abbrev Index := List (String × List String)

/-- The state of a `WNQuery` object after construction: the four
id-to-synset maps and the four literal indexes. -/
structure WNQuery where
  m_ndat : Store := []
  m_vdat : Store := []
  m_adat : Store := []
  m_bdat : Store := []
  m_nidx : Index := []
  m_vidx : Index := []
  m_aidx : Index := []
  m_bidx : Index := []
deriving DecidableEq

/-- `WNQuery.dat`: select the synset map for a POS tag; any tag other
than n, v, a, b raises `InvalidPOSException` (message formatted with
placeholder `{0}`). -/
def WNQuery.dat (q : WNQuery) (pos : String) : Except PyErr Store :=
  if pos = "n" then .ok q.m_ndat
  else if pos = "v" then .ok q.m_vdat
  else if pos = "a" then .ok q.m_adat
  else if pos = "b" then .ok q.m_bdat
  else
    match pyFormatPOS 0 [pos] with
    | .ok msg => .error (.invalidPOS msg)
    | .error e => .error e

/-- `WNQuery.idx`: select the literal index for a POS tag.  The source
formats the error message as `"Invalid POS '{1}'".format(pos)`; the
placeholder index 1 is out of range for the one-element argument
tuple, so the `format` call itself raises `IndexError` before the
`InvalidPOSException` is constructed. -/
def WNQuery.idx (q : WNQuery) (pos : String) : Except PyErr Index :=
  if pos = "n" then .ok q.m_nidx
  else if pos = "v" then .ok q.m_vidx
  else if pos = "a" then .ok q.m_aidx
  else if pos = "b" then .ok q.m_bidx
  else
    match pyFormatPOS 1 [pos] with
    | .ok msg => .error (.invalidPOS msg)
    | .error e => .error e

/-- Replace the synset map of the given POS (used to model in-place
mutation of the selected store). -/
def WNQuery.setDat (q : WNQuery) (pos : String) (d : Store) : WNQuery :=
  if pos = "n" then { q with m_ndat := d }
  else if pos = "v" then { q with m_vdat := d }
  else if pos = "a" then { q with m_adat := d }
  else if pos = "b" then { q with m_bdat := d }
  else q

/-- Replace the literal index of the given POS. -/
def WNQuery.setIdx (q : WNQuery) (pos : String) (ix : Index) : WNQuery :=
  if pos = "n" then { q with m_nidx := ix }
  else if pos = "v" then { q with m_vidx := ix }
  else if pos = "a" then { q with m_aidx := ix }
  else if pos = "b" then { q with m_bidx := ix }
  else q

/-- Models `self.idx(pos)[literal].append(wnid)` on a
`defaultdict(list)`: append to the list of an existing key, or bind a
new key (at the end, in insertion order) to a fresh one-element
list. -/
def idxAppend (ix : Index) (l : String) (wnid : String) : Index :=
  match ix with
  | [] => [(l, [wnid])]
  | (k, v) :: rest =>
      if k = l then (k, v ++ [wnid]) :: rest else (k, v) :: idxAppend rest l wnid

/-- `WNQuery._save_synset`: skip empty synsets; an invalid POS is
caught and logged as W02 (the synset is omitted); a duplicate id is
logged as W01 and the insertion is rejected; otherwise the synset is
stored under its id and every synonym literal is appended to the
literal index. -/
def WNQuery.save_synset (q : WNQuery) (syns : Synset) (lcnt : Nat) :
    WNQuery × List Warning :=
  if syns.isEmptySyn then (q, [])
  else
    match q.dat syns.pos with
    | .error (.invalidPOS msg) => (q, [.w02 msg lcnt])
    | .error _ => (q, [])
    | .ok d =>
        if (alookup d syns.wnid).isSome then (q, [.w01 syns.wnid lcnt])
        else
          match q.idx syns.pos with
          | .error _ => (q, [])
          | .ok ix =>
              ((q.setDat syns.pos (d ++ [(syns.wnid, syns)])).setIdx syns.pos
                 (syns.synonyms.foldl (fun acc y => idxAppend acc y.literal syns.wnid) ix),
               [])

/-- `WNQuery._createInvRelTable`: the fixed inversion table. -/
def invRelTable : List (String × String) :=
  [("hypernym", "hyponym"),
   ("holo_member", "mero_member"),
   ("holo_part", "mero_part"),
   ("holo_portion", "mero_portion"),
   ("region_domain", "region_member"),
   ("usage_domain", "usage_member"),
   ("category_domain", "category_member"),
   ("near_antonym", "near_antonym"),
   ("middle", "middle"),
   ("verb_group", "verb_group"),
   ("similar_to", "similar_to"),
   ("also_see", "also_see"),
   ("be_in_state", "be_in_state"),
   ("eng_derivative", "eng_derivative"),
   ("is_consequent_state_of", "has_consequent_state"),
   ("is_preparatory_phase_of", "has_preparatory_phase"),
   ("is_telos_of", "has_telos"),
   ("subevent", "has_subevent"),
   ("causes", "caused_by")]

/-- String order used by Python `sorted` (code-point lexicographic). -/
def strLe (a b : String) : Bool :=
  match compare a b with
  | .gt => false
  | _ => true

/-- Tuple order used by Python `sorted` on `(target, type)` pairs. -/
def pairLe (p q : String × String) : Bool :=
  match compare p.1 q.1 with
  | .lt => true
  | .gt => false
  | .eq =>
      match compare p.2 q.2 with
      | .gt => false
      | _ => true

/-- Ordered insertion used by `pySort`. -/
def insOrd {α : Type} (le : α → α → Bool) (x : α) : List α → List α
  | [] => [x]
  | y :: ys => if le x y then x :: y :: ys else y :: insOrd le x ys

/-- Models Python `sorted`: a stable ascending sort. -/
def pySort {α : Type} (le : α → α → Bool) (l : List α) : List α :=
  l.foldr (insOrd le) []

/-- Append one relation pair to the `ilrs` list of the synset stored
under key `k` (models `tt.ilrs.append((key, invr))`). -/
def updateIlrs (d : Store) (k : String) (e : String × String) : Store :=
  d.map (fun p => if p.1 = k then (p.1, { p.2 with ilrs := p.2.ilrs ++ [e] }) else p)

/-- One edge of the inner loop of `WNQuery._inv_rel_pos`: skip
non-invertible types; log W03 when the target id is absent; log W04
when the target is the source itself; otherwise append the inverse
edge to the target synset and log the addition. -/
def invEdgeStep (key : String) (srcWnid : String)
    (acc : Store × List Warning) (e : String × String) : Store × List Warning :=
  match alookup invRelTable e.2 with
  | none => acc
  | some invr =>
      match alookup acc.1 e.1 with
      | none => (acc.1, acc.2 ++ [.w03 e.1 e.2 key])
      | some tt =>
          if tt.wnid = srcWnid then (acc.1, acc.2 ++ [.w04 invr srcWnid])
          else (updateIlrs acc.1 e.1 (key, invr), acc.2 ++ [.addedInv key invr tt.wnid])

/-- One synset of the outer loop of `WNQuery._inv_rel_pos`: the
relation list of the synset *currently* stored under `key` is
snapshotted, sorted, and each edge is processed.  (In the source the
live object is read when its turn comes, so inverse edges appended by
earlier iterations are part of the snapshot.) -/
def invSynsetStep (acc : Store × List Warning) (key : String) : Store × List Warning :=
  match alookup acc.1 key with
  | none => acc
  | some val => (pySort pairLe val.ilrs).foldl (invEdgeStep key val.wnid) acc

/-- `WNQuery._inv_rel_pos`: iterate over the synset keys in sorted
order (the key list is snapshotted up front, as `sorted(dat.items())`
materialises its result before the loop body runs). -/
def inv_rel_pos (d : Store) : Store × List Warning :=
  (pySort strLe (d.map Prod.fst)).foldl invSynsetStep (d, [])

/-- `WNQuery.invert_relations`: run the inversion pass on the four POS
stores in order, with the informational header lines. -/
def WNQuery.invert_relations (q : WNQuery) : WNQuery × List Warning :=
  let n := inv_rel_pos q.m_ndat
  let v := inv_rel_pos q.m_vdat
  let a := inv_rel_pos q.m_adat
  let b := inv_rel_pos q.m_bdat
  ({ q with m_ndat := n.1, m_vdat := v.1, m_adat := a.1, m_bdat := b.1 },
   [.invertingPos "nouns"] ++ n.2 ++ [.invertingPos "verbs"] ++ v.2 ++
     [.invertingPos "adjectives"] ++ a.2 ++ [.invertingPos "adverbs"] ++ b.2)

/-- The `WNQuery` constructor after parsing: store every parsed
`(synset, line)` record in document order, then invert relations. -/
def loadAll (records : List (Synset × Nat)) : WNQuery × List Warning :=
  let loaded := records.foldl
    (fun acc r =>
      let s := acc.1.save_synset r.1 r.2
      (s.1, acc.2 ++ s.2))
    (({} : WNQuery), [])
  let inverted := loaded.1.invert_relations
  (inverted.1, loaded.2 ++ inverted.2)

/-- `WNQuery.lookUpID`: the synset stored under an id, or `none`. -/
def WNQuery.lookUpID (q : WNQuery) (wnid pos : String) :
    Except PyErr (Option Synset) := do
  let d ← q.dat pos
  .ok (alookup d wnid)

/-- Store-level body of `WNQuery.lookUpRelation`: the targets of the
edges of `wnid` whose type equals `relation`, in list order; empty
when `wnid` is absent. -/
def lookUpRelationD (d : Store) (wnid rel : String) : List String :=
  match alookup d wnid with
  | none => []
  | some s => s.ilrs.filterMap (fun p => if p.2 = rel then some p.1 else none)

/-- `WNQuery.lookUpRelation` with POS dispatch. -/
def WNQuery.lookUpRelation (q : WNQuery) (wnid pos relation : String) :
    Except PyErr (List String) := do
  let d ← q.dat pos
  .ok (lookUpRelationD d wnid relation)

/-- `WNQuery.lookUpLiteral`: the synsets whose ids are indexed under
the literal (a `lookUpID` miss is skipped). -/
def WNQuery.lookUpLiteral (q : WNQuery) (literal pos : String) :
    Except PyErr (List Synset) := do
  let ix ← q.idx pos
  match alookup ix literal with
  | none => .ok []
  | some ids => do
      let d ← q.dat pos
      .ok (ids.filterMap (fun i => alookup d i))

/-- Value of one decimal digit character. -/
def digitVal (c : Char) : Option Nat :=
  if ('0' ≤ c ∧ c ≤ '9') then some (c.toNat - '0'.toNat) else none

/-- Accumulate a digit string; `none` when empty or non-numeric. -/
def digitsVal : List Char → Option Nat
  | [] => none
  | [c] => digitVal c
  | c :: rest => do
      let d ← digitVal c
      let r ← digitsVal rest
      .some (d * 10 ^ rest.length + r)

/-- Models Python `int(s)` on the sense strings: optional sign
followed by decimal digits; anything else raises `ValueError`
(modelled as `none`). -/
def pyInt (s : String) : Option Int :=
  match s.data with
  | '-' :: rest => (digitsVal rest).map (fun n => -(n : Int))
  | '+' :: rest => (digitsVal rest).map (fun n => (n : Int))
  | l => (digitsVal l).map (fun n => (n : Int))

/-- Inner scan of `WNQuery.lookUpSense` over one synonym list:
`int(j.sense)` is evaluated whenever the literal matches, so a
non-numeric sense on a matching literal raises `ValueError`. -/
def senseScanSyn : List Synonym → String → Int → Except PyErr Bool
  | [], _, _ => .ok false
  | j :: rest, l, n =>
      if j.literal = l then
        match pyInt j.sense with
        | none => .error .valueError
        | some m => if m = n then .ok true else senseScanSyn rest l n
      else senseScanSyn rest l n

/-- Outer scan of `WNQuery.lookUpSense` over the literal lookup
result: the first synset holding the exact word sense is returned. -/
def senseScan : List Synset → String → Int → Except PyErr (Option Synset)
  | [], _, _ => .ok none
  | i :: rest, l, n =>
      match senseScanSyn i.synonyms l n with
      | .error e => .error e
      | .ok true => .ok (some i)
      | .ok false => senseScan rest l n

/-- `WNQuery.lookUpSense`: find the synset containing the word sense
`(literal, sensenum)`; sense numbers compare as integers. -/
def WNQuery.lookUpSense (q : WNQuery) (literal : String) (sensenum : Int)
    (pos : String) : Except PyErr (Option Synset) := do
  let res ← q.lookUpLiteral literal pos
  senseScan res literal sensenum

/-- `WNQuery.traceRelation` (fuel-indexed): preorder walk emitting the
current id, then the traces of the relation targets in order. -/
def traceRelationF : Nat → Store → String → String → List String
  | 0, _, _, _ => []
  | f + 1, d, wnid, rel =>
      wnid :: (lookUpRelationD d wnid rel).flatMap (fun i => traceRelationF f d i rel)

/-- `WNQuery.traceRelationD` (fuel-indexed): the same walk with the
recursion level attached to each visited id. -/
def traceRelationDF : Nat → Store → String → String → Nat → List (String × Nat)
  | 0, _, _, _, _ => []
  | f + 1, d, wnid, rel, lev =>
      (wnid, lev) ::
        (lookUpRelationD d wnid rel).flatMap (fun i => traceRelationDF f d i rel (lev + 1))

/-- `WNQuery.getMaxDepth` (fuel-indexed): one plus the largest level
in the depth-tagged trace started at level 0. -/
def getMaxDepthF (f : Nat) (d : Store) (wnid rel : String) : Nat :=
  ((traceRelationDF f d wnid rel 0).foldl (fun m p => if p.2 > m then p.2 else m) 0) + 1

/-- `WNQuery.trace_rel_recS` (fuel-indexed): the *set* of ids visited
by the recursive walk (Python builds a `set` and unions the recursive
results into it). -/
def trace_rel_recSF : Nat → Store → String → String → Finset String
  | 0, _, _, _ => ∅
  | f + 1, d, wnid, rel =>
      (lookUpRelationD d wnid rel).foldl (fun acc i => acc ∪ trace_rel_recSF f d i rel) {wnid}

/-- `WNQuery.getSubGraphSize` (fuel-indexed): the cardinality of the
visited set. -/
def getSubGraphSizeF (f : Nat) (d : Store) (wnid rel : String) : Nat :=
  (trace_rel_recSF f d wnid rel).card

/-- Python truthiness of an optional id as used by
`if foundTargetID:`: `None` and the empty string are falsy. -/
def pyTruthyStr (o : Option String) : Bool :=
  match o with
  | none => false
  | some s => s ≠ ""

/-- `WNQuery.isIDConnectedWith` (fuel-indexed): return the current id
when it is one of the targets, else depth-first search the children,
keeping the first truthy answer. -/
def isIDConnectedWithF : Nat → Store → String → String → List String → Option String
  | 0, _, _, _, _ => none
  | f + 1, d, wnid, rel, targ =>
      if wnid ∈ targ then some wnid
      else
        (lookUpRelationD d wnid rel).foldl
          (fun found i =>
            if pyTruthyStr found then found else isIDConnectedWithF f d i rel targ)
          none

/-- `WNQuery.isLiteralCompatibleWithSynset` (fuel-indexed): true when
the synset contains the literal, or (when `hyponyms` is set) when a
recursive scan of the hard-coded `hyponym` edges finds it. -/
def isLiteralCompatibleWithSynsetF : Nat → Store → String → String → Bool → Bool
  | 0, _, _, _, _ => false
  | f + 1, d, literal, wnid, hyponyms =>
      match alookup d wnid with
      | none => false
      | some syns =>
          if syns.synonyms.any (fun i => i.literal = literal) then true
          else if hyponyms then
            syns.ilrs.any (fun p =>
              p.2 = "hyponym" && isLiteralCompatibleWithSynsetF f d literal p.1 true)
          else false

/-- `WNQuery.areSynonyms`: first sense of `literal1` whose synset
contains `literal2` directly. -/
def WNQuery.areSynonyms (q : WNQuery) (literal1 literal2 pos : String) (f : Nat) :
    Except PyErr (Option String) := do
  let res ← q.lookUpLiteral literal1 pos
  let d ← q.dat pos
  .ok (res.foldl
    (fun found i =>
      if found.isSome then found
      else if isLiteralCompatibleWithSynsetF f d literal2 i.wnid false then some i.wnid
      else none)
    none)

/-- `WNQuery.isLiteralConnectedWith`: scan the senses of the literal,
returning the first `(sense id, found target)` pair. -/
def WNQuery.isLiteralConnectedWith (q : WNQuery) (literal pos relation : String)
    (targ : List String) (f : Nat) : Except PyErr (Option String × Option String) := do
  let res ← q.lookUpLiteral literal pos
  let d ← q.dat pos
  .ok (res.foldl
    (fun found i =>
      if pyTruthyStr found.2 then found
      else
        let r := isIDConnectedWithF f d i.wnid relation targ
        if pyTruthyStr r then (some i.wnid, r) else (none, none))
    (none, none))

/-- `LeaCho_D`: the depth constant of the similarity measure. -/
def LeaCho_D : Nat := 20

/-- `WNQuery.getReach` (fuel-indexed): enumerate
`(reachable id, distance)` pairs, the start at `dist`, children at
`dist + 1`; when a *present* node has no outgoing edge of the
relation type and `addTop` is set, the sentinel `#TOP#` pseudo-node
is appended at `dist + 1`.  An absent id yields the empty list. -/
def getReachF : Nat → Store → String → String → Bool → Nat → List (String × Nat)
  | 0, _, _, _, _, _ => []
  | f + 1, d, wnid, rel, addTop, dist =>
      match alookup d wnid with
      | none => []
      | some s =>
          let haschildren := s.ilrs.any (fun p => p.2 = rel)
          (wnid, dist) ::
            ((s.ilrs.filterMap (fun p => if p.2 = rel then some p.1 else none)).flatMap
                (fun sid => getReachF f d sid rel addTop (dist + 1)) ++
              (if !haschildren && addTop then [("#TOP#", dist + 1)] else []))

/-- The common-node scan of `WNQuery.simLeaCho`: a brute-force fold
over the cross product of the two reach lists, keeping the common
node pair with the smallest distance sum; the running bound starts at
`2 * LeaCho_D` and only strictly smaller sums update it.  (In the
source `ci_r1` and `ci_r2` are always assigned together; they are
modelled as one option holding both pairs.) -/
def simPairsFold (r1 r2 : List (String × Nat)) :
    Option ((String × Nat) × (String × Nat)) × Nat :=
  r1.foldl
    (fun st p1 =>
      r2.foldl
        (fun st2 p2 =>
          if p1.1 = p2.1 ∧ p1.2 + p2.2 < st2.2 then (some (p1, p2), p1.2 + p2.2) else st2)
        st)
    (none, 2 * LeaCho_D)

/-- `WNQuery.simLeaCho` reduced to the connecting path length: `some
(pl - 1)` (the common node counted once) when a common node was
found, `none` when no connecting path exists.  The floating score of
the source is `-log10(L / (2 * D))`, a strictly decreasing injective
function of the returned length, and `LeaCho_noconnect` for `none`;
see `simScore`. -/
def simLeaChoLenF (f : Nat) (d : Store) (wnid1 wnid2 rel : String) (addTop : Bool) :
    Option Nat :=
  let r1 := getReachF f d wnid1 rel addTop 1
  let r2 := getReachF f d wnid2 rel addTop 1
  let st := simPairsFold r1 r2
  match st.1 with
  | some _ => some (st.2 - 1)
  | none => none

/-- `LeaCho_synonym` from the source: `-log10(1 / (2 * 20))`. -/
noncomputable def LeaCho_synonym : ℝ :=
  -Real.logb 10 (1 / (2 * (LeaCho_D : ℝ)))

/-- `LeaCho_noconnect` from the source. -/
def LeaCho_noconnect : ℝ := -1

/-- The real-valued similarity score of a path-length outcome:
`-log10(L / (2 * D))` for a found path of length `L`, the
no-connection sentinel otherwise. -/
noncomputable def simScore : Option Nat → ℝ
  | some L => -Real.logb 10 ((L : ℝ) / (2 * (LeaCho_D : ℝ)))
  | none => LeaCho_noconnect

/-- `WNQuery.simLeaCho` with the real-valued score. -/
noncomputable def simLeaChoF (f : Nat) (d : Store) (wnid1 wnid2 rel : String)
    (addTop : Bool) : ℝ :=
  simScore (simLeaChoLenF f d wnid1 wnid2 rel addTop)

/-- Python dict assignment `m[k] = v`: replace the value of an
existing key in place, or append a new binding. -/
def dictUpd {α : Type} [DecidableEq α] (m : List (α × String × String)) (k : α)
    (v : String × String) : List (α × String × String) :=
  match m with
  | [] => [(k, v)]
  | (k0, v0) :: rest =>
      if k0 = k then (k0, v) :: rest else (k0, v0) :: dictUpd rest k v

/-- First-match lookup in a score-keyed result dict. -/
def dictGet {α : Type} [DecidableEq α] :
    List (α × String × String) → α → Option (String × String)
  | [], _ => none
  | p :: rest, k => if p.1 = k then some p.2 else dictGet rest k

/-- The result dict of `WNQuery.similarityLeacockChodorow`: for every
sense pair (senses of the first literal outer, senses of the second
literal inner) the score is computed and `results[score] = (id1,
id2)` is executed.  Scores are represented by the path-length
outcome, of which the floating score is an injective function. -/
def simLCresults (f : Nat) (d : Store) (l1 l2 : List Synset) (rel : String)
    (addTop : Bool) : List (Option Nat × String × String) :=
  l1.foldl
    (fun m i =>
      l2.foldl
        (fun m2 j =>
          dictUpd m2 (simLeaChoLenF f d i.wnid j.wnid rel addTop) (i.wnid, j.wnid))
        m)
    []

/-- `WNQuery.similarityLeacockChodorow` with POS dispatch. -/
def WNQuery.similarityLeacockChodorow (q : WNQuery) (literal1 literal2 pos relation : String)
    (addTop : Bool) (f : Nat) : Except PyErr (List (Option Nat × String × String)) := do
  let l1 ← q.lookUpLiteral literal1 pos
  let l2 ← q.lookUpLiteral literal2 pos
  let d ← q.dat pos
  .ok (simLCresults f d l1 l2 relation addTop)

/-! ### Specification-side predicates -/

/-- A ranking function witnessing acyclicity of the `rel`-subgraph of
a store: every `rel`-edge strictly decreases the rank.  On a finite
graph such a function exists exactly when the `rel`-edges are
acyclic. -/
def RankedBy (d : Store) (rel : String) (rank : String → Nat) : Prop :=
  ∀ p ∈ d, ∀ e ∈ p.2.ilrs, e.2 = rel → rank e.1 < rank p.1

/-- A synset extended by appended relation edges: every field agrees
except that `ilrs` may have grown at the end. -/
def SynExt (s t : Synset) : Prop :=
  t.wnid = s.wnid ∧ t.pos = s.pos ∧ t.definition = s.definition ∧
    t.synonyms = s.synonyms ∧ ∃ ext, t.ilrs = s.ilrs ++ ext

/-- One store entry extended: same key, extended synset. -/
def EntryExt (p q : String × Synset) : Prop :=
  q.1 = p.1 ∧ SynExt p.2 q.2

/-- A store extended entry-by-entry (what the inversion pass does: it
never adds, removes or reorders entries, and only appends to `ilrs`
lists). -/
def StoreExt (d e : Store) : Prop :=
  List.Forall₂ EntryExt d e

/-- Number of occurrences of the edge `e` in the relation list of the
synset stored under `k`. -/
def edgeCount (d : Store) (k : String) (e : String × String) : Nat :=
  match alookup d k with
  | none => 0
  | some s => s.ilrs.count e

/-- The literal-to-id mappings implied by the synonym lists of a
store: one id occurrence per synonym occurrence with the given
literal, in store order. -/
def indexOf (d : Store) (l : String) : List String :=
  d.flatMap (fun p => p.2.synonyms.filterMap
    (fun y => if y.literal = l then some p.2.wnid else none))

/-- Read a literal's id list from an index (missing literal: empty). -/
def idxGet (ix : Index) (l : String) : List String :=
  (alookup ix l).getD []

/-- Well-formedness of one POS store with its literal index: keys are
the synset ids, ids are unique, and the index holds exactly the
mappings implied by the stored synonym lists. -/
def GoodPos (d : Store) (ix : Index) : Prop :=
  (∀ p ∈ d, p.2.wnid = p.1) ∧ (d.map Prod.fst).Nodup ∧ ∀ l, idxGet ix l = indexOf d l

/-- Well-formedness of all four POS stores of a query object. -/
def GoodQ (q : WNQuery) : Prop :=
  GoodPos q.m_ndat q.m_nidx ∧ GoodPos q.m_vdat q.m_vidx ∧
    GoodPos q.m_adat q.m_aidx ∧ GoodPos q.m_bdat q.m_bidx

/-- `(literal, n)` is a unique word sense within the store: every
synonym occurrence with that literal and integer sense value `n`
belongs to the synset stored under `wnid`. -/
def UniqueSense (d : Store) (l : String) (n : Int) (wnid : String) : Prop :=
  ∀ p ∈ d, ∀ y ∈ p.2.synonyms, y.literal = l → pyInt y.sense = some n → p.1 = wnid

/-- Every synonym occurrence of the literal in the store has a sense
string that parses as an integer (so the `int(...)` calls of
`lookUpSense` cannot raise `ValueError`). -/
def SensesParse (d : Store) (l : String) : Prop :=
  ∀ p ∈ d, ∀ y ∈ p.2.synonyms, y.literal = l → (pyInt y.sense).isSome

/-! ### Concrete stores used by counterexamples and witnesses -/

/-- A store with a duplicate-insert setup: one noun synset indexed
under its literal. -/
def exQ4 : WNQuery :=
  { m_ndat := [("N1", { wnid := "N1", pos := "n",
                        synonyms := [{ literal := "dog", sense := "1" }] })],
    m_nidx := [("dog", ["N1"])] }

/-- A second synset carrying the already-present id `N1`. -/
def exS4 : Synset :=
  { wnid := "N1", pos := "n", synonyms := [{ literal := "cat", sense := "1" }] }

/-- Both ids present, acyclic, but `A`'s only `hypernym` edge dangles
to the absent id `X`, so `A`'s reach never gets the synthetic root. -/
def exC2a : Store :=
  [("A", { wnid := "A", pos := "n", ilrs := [("X", "hypernym")] }),
   ("B", { wnid := "B", pos := "n" })]

/-- Rank function showing `exC2a` is acyclic under `hypernym`. -/
def exC2aRank : String → Nat :=
  fun id => if id = "A" then 1 else 0

/-- A closed 37-node `hypernym` chain `A0 → A1 → … → A36` plus the
isolated node `B`: the only common reach node of `A0` and `B` is the
synthetic root, at combined distance `38 + 2 = 40 = 2·D`, which the
strict bound of the scan rejects. -/
def exC2chain : Store :=
  ((List.range 37).map (fun i =>
    ("A" ++ toString i,
     { wnid := "A" ++ toString i, pos := "n",
       ilrs := if i + 1 < 37 then [("A" ++ toString (i + 1), "hypernym")] else [] })))
  ++ [("B", { wnid := "B", pos := "n" })]

/-- Rank function showing `exC2chain` is acyclic under `hypernym`. -/
def exC2chainRank : String → Nat :=
  fun id => 37 - (List.range 37).findIdx (fun i => "A" ++ toString i = id)

/-- Single isolated synset (witness store for the amended claim). -/
def exC2w : Store :=
  [("S", { wnid := "S", pos := "n" })]

/-- Synset `A` of the inversion counterexample store. -/
def exC3A : Synset :=
  { wnid := "A", pos := "n", ilrs := [("B", "near_antonym")] }

/-- Synset `B` of the inversion counterexample store. -/
def exC3B : Synset :=
  { wnid := "B", pos := "n" }

/-- Inversion counterexample store: one `near_antonym` edge from the
sorted-earlier synset `A` to the later synset `B`. -/
def exC3 : Store :=
  [("A", exC3A), ("B", exC3B)]

/-- Load-phase record: synset `N1` with two word senses. -/
def exRec1 : Synset :=
  { wnid := "N1", pos := "n",
    synonyms := [{ literal := "w1", sense := "1" }, { literal := "w2", sense := "1" }] }

/-- Load-phase record: synset `N2` sharing both literals with `N1`. -/
def exRec2 : Synset :=
  { wnid := "N2", pos := "n",
    synonyms := [{ literal := "w1", sense := "2" }, { literal := "w2", sense := "2" }] }

/-- A two-record load input. -/
def exRecs : List (Synset × Nat) :=
  [(exRec1, 1), (exRec2, 2)]

/-- The query object built by loading `exRecs`. -/
def exQ9 : WNQuery :=
  (loadAll exRecs).1

/-- Synset `A` of the witness store `exW`. -/
def exWA : Synset :=
  { wnid := "A", pos := "n", ilrs := [("B", "hypernym")],
    synonyms := [{ literal := "dog", sense := "1" }] }

/-- Synset `B` of the witness store `exW`. -/
def exWB : Synset :=
  { wnid := "B", pos := "n", ilrs := [] }

/-- Small two-node store `A --hypernym--> B` used by witnesses. -/
def exW : Store :=
  [("A", exWA), ("B", exWB)]

/-- Rank function showing `exW` is acyclic under `hypernym`. -/
def exWrank : String → Nat :=
  fun id => if id = "A" then 1 else 0

deriving instance DecidableEq for Except

instance (d : Store) (rel : String) (rank : String → Nat) : Decidable (RankedBy d rel rank) :=
  inferInstanceAs (Decidable (∀ p ∈ d, ∀ e ∈ p.2.ilrs, e.2 = rel → rank e.1 < rank p.1))

/-! ### Association-list and sorting lemmas -/

theorem alookup_mem {α : Type} {l : List (String × α)} {k : String} {a : α}
    (h : alookup l k = some a) : (k, a) ∈ l := by
  induction l with
  | nil => simp [alookup] at h
  | cons p rest ih =>
      obtain ⟨k0, a0⟩ := p
      by_cases hk : k0 = k
      · subst hk
        simp [alookup] at h
        subst h
        exact List.mem_cons_self _ _
      · simp [alookup, hk] at h
        exact List.mem_cons_of_mem _ (ih h)

theorem alookup_eq_none_iff {α : Type} {l : List (String × α)} {k : String} :
    alookup l k = none ↔ k ∉ l.map Prod.fst := by
  induction l with
  | nil => simp [alookup]
  | cons p rest ih =>
      obtain ⟨k0, a0⟩ := p
      by_cases hk : k0 = k
      · subst hk
        simp [alookup]
      · simp [alookup, hk, ih, Ne.symm hk]

theorem mem_alookup_of_nodup {α : Type} {l : List (String × α)}
    (hn : (l.map Prod.fst).Nodup) {k : String} {a : α} (hm : (k, a) ∈ l) :
    alookup l k = some a := by
  induction l with
  | nil => cases hm
  | cons p rest ih =>
      obtain ⟨k0, a0⟩ := p
      rcases List.mem_cons.1 hm with h | h
      · cases h
        simp [alookup]
      · have hk : k0 ≠ k := by
          intro hc
          subst hc
          exact (List.nodup_cons.1 hn).1 (List.mem_map.2 ⟨(k0, a), h, rfl⟩)
        simp [alookup, hk]
        exact ih (List.nodup_cons.1 hn).2 h

theorem insOrd_perm {α : Type} (le : α → α → Bool) (x : α) (l : List α) :
    (insOrd le x l).Perm (x :: l) := by
  induction l with
  | nil => simp [insOrd]
  | cons y ys ih =>
      simp only [insOrd]
      by_cases h : le x y
      · simp [h]
      · simp only [h, if_false, Bool.false_eq_true]
        exact (ih.cons y).trans (List.Perm.swap x y ys)

theorem pySort_perm {α : Type} (le : α → α → Bool) (l : List α) :
    (pySort le l).Perm l := by
  induction l with
  | nil => simp [pySort]
  | cons a l ih => exact (insOrd_perm le a (pySort le l)).trans (ih.cons a)

theorem mem_pySort {α : Type} {le : α → α → Bool} {l : List α} {x : α} :
    x ∈ pySort le l ↔ x ∈ l :=
  (pySort_perm le l).mem_iff

theorem flatMap_congr_mem {α β : Type} {l : List α} {f g : α → List β}
    (h : ∀ a ∈ l, f a = g a) : l.flatMap f = l.flatMap g := by
  induction l with
  | nil => rfl
  | cons a l ih =>
      simp only [List.flatMap_cons]
      rw [h a (List.mem_cons_self _ _), ih fun b hb => h b (List.mem_cons_of_mem _ hb)]

theorem foldl_const {α β : Type} (l : List α) (b : β) :
    l.foldl (fun s _ => s) b = b := by
  induction l generalizing b with
  | nil => rfl
  | cons a l ih => simp [ih b]

/-! ### C1: invalid part-of-speech behaviour -/

/-- C1: the claim says every Store/traversal/similarity operation,
including the literal-indexed ones, raises `InvalidPartOfSpeech` on an
unrecognized pos tag, and that this is the only exception the Store
raises.  The code diverges: `WNQuery.idx` formats its error message as
`"Invalid POS '{1}'".format(pos)`, whose out-of-range placeholder
raises `IndexError` before the `InvalidPOSException` is built, so all
literal-indexed operations surface `IndexError` instead.  Operations
dispatching through `WNQuery.dat` (placeholder `{0}`) do raise
`InvalidPOSException` as claimed. -/
theorem claim_C1 :
    (({} : WNQuery)).idx "x" = .error .indexError ∧
    (({} : WNQuery)).dat "x" = .error (.invalidPOS "Invalid POS 'x'") ∧
    (({} : WNQuery)).lookUpLiteral "dog" "x" = .error .indexError ∧
    (({} : WNQuery)).lookUpSense "dog" 1 "x" = .error .indexError ∧
    (({} : WNQuery)).areSynonyms "dog" "cat" "x" 5 = .error .indexError ∧
    (({} : WNQuery)).isLiteralConnectedWith "dog" "x" "hypernym" [] 5 = .error .indexError ∧
    (({} : WNQuery)).similarityLeacockChodorow "dog" "cat" "x" "hypernym" true 5 =
      .error .indexError ∧
    (({} : WNQuery)).lookUpID "N1" "x" = .error (.invalidPOS "Invalid POS 'x'") ∧
    (({} : WNQuery)).lookUpRelation "N1" "x" "hypernym" = .error (.invalidPOS "Invalid POS 'x'") :=
  ⟨rfl, rfl, rfl, rfl, rfl, rfl, rfl, rfl, rfl⟩

/-! ### C4: duplicate-id insertion is rejected -/

/-- C4: inserting a synset whose id already exists in the target POS
store is rejected: the query state is returned unchanged (stores and
literal indexes alike) and exactly the W01 duplicate-id warning (id
and source line) is emitted. -/
theorem claim_C4 (q : WNQuery) (syns : Synset) (lcnt : Nat) (d : Store)
    (hd : q.dat syns.pos = .ok d) (hne : syns.isEmptySyn = false)
    (hdup : (alookup d syns.wnid).isSome = true) :
    q.save_synset syns lcnt = (q, [.w01 syns.wnid lcnt]) := by
  simp [WNQuery.save_synset, hne, hd, hdup]

/-- Witness for C4 on a concrete store: `exS4` re-uses the stored id
`N1`, insertion leaves the query untouched and logs W01. -/
theorem claim_C4_witness :
    exQ4.dat exS4.pos = .ok exQ4.m_ndat ∧ exS4.isEmptySyn = false ∧
      (alookup exQ4.m_ndat exS4.wnid).isSome = true ∧
      exQ4.save_synset exS4 7 = (exQ4, [.w01 "N1" 7]) :=
  ⟨rfl, rfl, rfl, claim_C4 exQ4 exS4 7 exQ4.m_ndat rfl rfl rfl⟩

/-! ### C10: behaviour of the walks on an absent id -/

/-- C10: an id absent from the POS store is still treated as a visited
node by the traversal walks: its trace is the one-element list, max
depth and subgraph size are 1; by contrast `getReach` of an absent id
is empty, so the similarity of any pair involving an absent id is the
no-connection outcome even with the synthetic root enabled. -/
theorem claim_C10 (d : Store) (id rel : String) (f : Nat) (addTop : Bool)
    (h : alookup d id = none) (hf : 1 ≤ f) :
    traceRelationF f d id rel = [id] ∧
    getMaxDepthF f d id rel = 1 ∧
    getSubGraphSizeF f d id rel = 1 ∧
    getReachF f d id rel addTop 1 = [] ∧
    (∀ id2, simLeaChoLenF f d id id2 rel addTop = none) ∧
    (∀ id1, simLeaChoLenF f d id1 id rel addTop = none) := by
  obtain ⟨g, rfl⟩ : ∃ g, f = g + 1 := ⟨f - 1, by omega⟩
  have hrel : lookUpRelationD d id rel = [] := by simp [lookUpRelationD, h]
  refine ⟨?_, ?_, ?_, ?_, ?_, ?_⟩
  · simp [traceRelationF, hrel]
  · simp [getMaxDepthF, traceRelationDF, hrel]
  · simp [getSubGraphSizeF, trace_rel_recSF, hrel]
  · simp [getReachF, h]
  · intro id2
    simp [simLeaChoLenF, simPairsFold, getReachF, h]
  · intro id1
    simp only [simLeaChoLenF, simPairsFold]
    rw [show getReachF (g + 1) d id rel addTop 1 = [] by simp [getReachF, h]]
    simp only [List.foldl_nil]
    rw [foldl_const]

/-! ### Lemmas about the common-node scan of `simLeaCho` -/

theorem innerFold_isSome (p1 : String × Nat) (r2 : List (String × Nat))
    (st : Option ((String × Nat) × (String × Nat)) × Nat) (h : st.1.isSome) :
    (r2.foldl
        (fun st2 p2 =>
          if p1.1 = p2.1 ∧ p1.2 + p2.2 < st2.2 then (some (p1, p2), p1.2 + p2.2) else st2)
        st).1.isSome := by
  induction r2 generalizing st with
  | nil => exact h
  | cons b rest ih =>
      simp only [List.foldl_cons]
      by_cases hc : p1.1 = b.1 ∧ p1.2 + b.2 < st.2
      · rw [if_pos hc]
        exact ih _ rfl
      · rw [if_neg hc]
        exact ih st h

theorem innerFold_eq_or_isSome (p1 : String × Nat) (r2 : List (String × Nat))
    (st : Option ((String × Nat) × (String × Nat)) × Nat) :
    (r2.foldl
        (fun st2 p2 =>
          if p1.1 = p2.1 ∧ p1.2 + p2.2 < st2.2 then (some (p1, p2), p1.2 + p2.2) else st2)
        st) = st ∨
      (r2.foldl
        (fun st2 p2 =>
          if p1.1 = p2.1 ∧ p1.2 + p2.2 < st2.2 then (some (p1, p2), p1.2 + p2.2) else st2)
        st).1.isSome := by
  induction r2 generalizing st with
  | nil => exact Or.inl rfl
  | cons b rest ih =>
      simp only [List.foldl_cons]
      by_cases hc : p1.1 = b.1 ∧ p1.2 + b.2 < st.2
      · rw [if_pos hc]
        exact Or.inr (innerFold_isSome p1 rest _ rfl)
      · rw [if_neg hc]
        exact ih st

theorem innerFold_hit (p1 b1 : String × Nat) (r2 : List (String × Nat))
    (hb : b1 ∈ r2) (hk : p1.1 = b1.1) (hsum : p1.2 + b1.2 < 2 * LeaCho_D) :
    ((r2.foldl
        (fun st2 p2 =>
          if p1.1 = p2.1 ∧ p1.2 + p2.2 < st2.2 then (some (p1, p2), p1.2 + p2.2) else st2)
        ((none, 2 * LeaCho_D) :
          Option ((String × Nat) × (String × Nat)) × Nat))).1.isSome := by
  induction r2 with
  | nil => cases hb
  | cons b rest ih =>
      simp only [List.foldl_cons]
      rcases List.mem_cons.1 hb with rfl | hb2
      · rw [if_pos ⟨hk, hsum⟩]
        exact innerFold_isSome p1 rest _ rfl
      · by_cases hc : p1.1 = b.1 ∧ p1.2 + b.2 < (2 * LeaCho_D)
        · rw [if_pos hc]
          exact innerFold_isSome p1 rest _ rfl
        · rw [if_neg hc]
          exact ih hb2

theorem outerFold_isSome (r1 r2 : List (String × Nat))
    (st : Option ((String × Nat) × (String × Nat)) × Nat) (h : st.1.isSome) :
    (r1.foldl
        (fun st p1 =>
          r2.foldl
            (fun st2 p2 =>
              if p1.1 = p2.1 ∧ p1.2 + p2.2 < st2.2 then (some (p1, p2), p1.2 + p2.2) else st2)
            st)
        st).1.isSome := by
  induction r1 generalizing st with
  | nil => exact h
  | cons a rest ih =>
      simp only [List.foldl_cons]
      exact ih _ (innerFold_isSome a r2 st h)

theorem outerFold_hit (r1 r2 : List (String × Nat)) (p1 p2 : String × Nat)
    (h1 : p1 ∈ r1) (h2 : p2 ∈ r2) (hk : p1.1 = p2.1)
    (hsum : p1.2 + p2.2 < 2 * LeaCho_D) :
    ∀ st : Option ((String × Nat) × (String × Nat)) × Nat,
      (st = (none, 2 * LeaCho_D) ∨ st.1.isSome) →
      (r1.foldl
          (fun st p1 =>
            r2.foldl
              (fun st2 p2 =>
                if p1.1 = p2.1 ∧ p1.2 + p2.2 < st2.2 then (some (p1, p2), p1.2 + p2.2) else st2)
              st)
          st).1.isSome := by
  induction r1 with
  | nil => cases h1
  | cons a rest ih =>
      intro st hst
      simp only [List.foldl_cons]
      rcases hst with rfl | hsome
      · rcases List.mem_cons.1 h1 with rfl | h1r
        · exact outerFold_isSome rest r2 _ (innerFold_hit p1 p2 r2 h2 hk hsum)
        · rcases innerFold_eq_or_isSome a r2 (none, 2 * LeaCho_D) with heq | hsome2
          · rw [heq]
            exact ih h1r _ (Or.inl rfl)
          · exact outerFold_isSome rest r2 _ hsome2
      · exact outerFold_isSome rest r2 _ (innerFold_isSome a r2 st hsome)

theorem simPairsFold_isSome (r1 r2 : List (String × Nat)) (p1 p2 : String × Nat)
    (h1 : p1 ∈ r1) (h2 : p2 ∈ r2) (hk : p1.1 = p2.1)
    (hsum : p1.2 + p2.2 < 2 * LeaCho_D) :
    (simPairsFold r1 r2).1.isSome :=
  outerFold_hit r1 r2 p1 p2 h1 h2 hk hsum (none, 2 * LeaCho_D) (Or.inl rfl)

theorem innerFold_frozen (p1 : String × Nat) (r2 : List (String × Nat))
    (st : Option ((String × Nat) × (String × Nat)) × Nat)
    (h : ∀ p2 ∈ r2, ¬(p1.1 = p2.1 ∧ p1.2 + p2.2 < st.2)) :
    (r2.foldl
        (fun st2 p2 =>
          if p1.1 = p2.1 ∧ p1.2 + p2.2 < st2.2 then (some (p1, p2), p1.2 + p2.2) else st2)
        st) = st := by
  induction r2 with
  | nil => rfl
  | cons b rest ih =>
      simp only [List.foldl_cons]
      rw [if_neg (h b (List.mem_cons_self _ _))]
      exact ih fun p2 hp => h p2 (List.mem_cons_of_mem _ hp)

theorem outerFold_frozen (r1 r2 : List (String × Nat))
    (st : Option ((String × Nat) × (String × Nat)) × Nat)
    (h : ∀ p1 ∈ r1, ∀ p2 ∈ r2, ¬(p1.1 = p2.1 ∧ p1.2 + p2.2 < st.2)) :
    (r1.foldl
        (fun st p1 =>
          r2.foldl
            (fun st2 p2 =>
              if p1.1 = p2.1 ∧ p1.2 + p2.2 < st2.2 then (some (p1, p2), p1.2 + p2.2) else st2)
            st)
        st) = st := by
  induction r1 with
  | nil => rfl
  | cons a rest ih =>
      simp only [List.foldl_cons]
      rw [innerFold_frozen a r2 st (h a (List.mem_cons_self _ _))]
      exact ih fun p1 hp => h p1 (List.mem_cons_of_mem _ hp)

theorem getReach_dist_le (f : Nat) (d : Store) (rel : String) (addTop : Bool) :
    ∀ (w : String) (dist : Nat), ∀ p ∈ getReachF f d w rel addTop dist, dist ≤ p.2 := by
  induction f with
  | zero =>
      intro w dist p hp
      simp [getReachF] at hp
  | succ g ih =>
      intro w dist p hp
      rcases halk : alookup d w with _ | s
      · rw [getReachF, halk] at hp
        cases hp
      · rw [getReachF, halk] at hp
        simp only at hp
        rcases List.mem_cons.1 hp with rfl | hp2
        · exact Nat.le_refl _
        · rcases List.mem_append.1 hp2 with hp3 | hp4
          · obtain ⟨sid, _, hm⟩ := List.mem_flatMap.1 hp3
            exact Nat.le_of_succ_le (ih sid (dist + 1) p hm)
          · rcases hif : (!s.ilrs.any fun p => p.2 = rel) && addTop with _ | _
            · rw [hif] at hp4
              cases hp4
            · rw [hif] at hp4
              rcases List.mem_cons.1 hp4 with rfl | hempty
              · exact Nat.le_succ _
              · cases hempty

/-! ### C2: similarity with the synthetic root -/

/-- C2 counterexample: the claim says that with `add_synthetic_root`
true and both ids present (acyclic graph) the similarity scan always
finds a common node, never returning the no-connection score.  Two
concrete refutations: in `exC2a` the node `A`'s only `hypernym` edge
dangles to the absent id `X`, so `A`'s reach gets no `#TOP#` sentinel
and `simLeaCho(A, B, true)` is the no-connection outcome; in the
closed, acyclic store `exC2chain` (every edge target present) the only
common node of `A0` and `B` is `#TOP#` at combined distance
`38 + 2 = 40 = 2·D`, which the strictly-less bound of the scan
rejects, again yielding no connection. -/
theorem claim_C2_cex :
    ((alookup exC2a "A").isSome = true ∧ (alookup exC2a "B").isSome = true ∧
      RankedBy exC2a "hypernym" exC2aRank ∧
      simLeaChoLenF 5 exC2a "A" "B" "hypernym" true = none ∧
      simLeaChoLenF 6 exC2a "A" "B" "hypernym" true = none) ∧
    ((alookup exC2chain "A0").isSome = true ∧ (alookup exC2chain "B").isSome = true ∧
      RankedBy exC2chain "hypernym" exC2chainRank ∧
      (∀ p ∈ exC2chain, ∀ e ∈ p.2.ilrs, (alookup exC2chain e.1).isSome = true) ∧
      simLeaChoLenF 50 exC2chain "A0" "B" "hypernym" true = none) :=
  ⟨⟨rfl, rfl, by decide, by decide, by decide⟩,
   ⟨rfl, rfl, by decide, by decide, by decide⟩⟩

/-- C2 (amended): the similarity computation returns a real score
(not the no-connection outcome) whenever the two reach lists share a
common node whose distance sum is below `2·D`.  With
`add_synthetic_root` true this holds in particular when every
relation path from both start ids ends in a true leaf (no dangling
edges to absent synsets) at small enough depth; a no-common-node
outcome remains possible with the synthetic root when a reachable
relation edge targets an absent synset, or when every common node
lies at combined distance at least `2·D`. -/
theorem claim_C2 (f : Nat) (d : Store) (id1 id2 rel : String) (addTop : Bool)
    (c : String) (d1 d2 : Nat)
    (h1 : (c, d1) ∈ getReachF f d id1 rel addTop 1)
    (h2 : (c, d2) ∈ getReachF f d id2 rel addTop 1)
    (hsum : d1 + d2 < 2 * LeaCho_D) :
    ∃ L, simLeaChoLenF f d id1 id2 rel addTop = some L := by
  have hs := simPairsFold_isSome (getReachF f d id1 rel addTop 1)
    (getReachF f d id2 rel addTop 1) (c, d1) (c, d2) h1 h2 rfl hsum
  obtain ⟨x, hx⟩ := Option.isSome_iff_exists.1 hs
  refine ⟨(simPairsFold (getReachF f d id1 rel addTop 1)
    (getReachF f d id2 rel addTop 1)).2 - 1, ?_⟩
  simp only [simLeaChoLenF]
  rw [hx]

/-- Witness for the amended C2 on the one-node store `exC2w`. -/
theorem claim_C2_witness :
    ("S", 1) ∈ getReachF 3 exC2w "S" "hypernym" true 1 ∧ 1 + 1 < 2 * LeaCho_D ∧
      ∃ L, simLeaChoLenF 3 exC2w "S" "S" "hypernym" true = some L :=
  ⟨by decide, by decide,
   claim_C2 3 exC2w "S" "S" "hypernym" true "S" 1 1 (by decide) (by decide) (by decide)⟩

/-! ### C8: self-similarity equals the synonym score -/

theorem simPairsFold_self (id : String) (rest : List (String × Nat))
    (hge : ∀ p ∈ ((id, 1) :: rest : List (String × Nat)), 1 ≤ p.2) :
    simPairsFold ((id, 1) :: rest) ((id, 1) :: rest) = (some ((id, 1), (id, 1)), 2) := by
  have hx : (((id, 1) :: rest : List (String × Nat)).foldl
      (fun st2 p2 =>
        if ((id, 1) : String × Nat).1 = p2.1 ∧ ((id, 1) : String × Nat).2 + p2.2 < st2.2
        then (some (((id, 1) : String × Nat), p2), ((id, 1) : String × Nat).2 + p2.2) else st2)
      ((none, 2 * LeaCho_D) : Option ((String × Nat) × (String × Nat)) × Nat))
      = (some ((id, 1), (id, 1)), 2) := by
    rw [List.foldl_cons]
    rw [if_pos (show ((id, 1) : String × Nat).1 = ((id, 1) : String × Nat).1 ∧
        ((id, 1) : String × Nat).2 + ((id, 1) : String × Nat).2 < ((none, 2 * LeaCho_D) :
          Option ((String × Nat) × (String × Nat)) × Nat).2 from
      ⟨rfl, by norm_num [LeaCho_D]⟩)]
    exact innerFold_frozen (id, 1) rest (some ((id, 1), (id, 1)), 2)
      (by
        intro p2 hp
        have := hge p2 (List.mem_cons_of_mem _ hp)
        intro hc
        omega)
  have hy : rest.foldl
      (fun st p1 =>
        ((id, 1) :: rest : List (String × Nat)).foldl
          (fun st2 p2 =>
            if p1.1 = p2.1 ∧ p1.2 + p2.2 < st2.2 then (some (p1, p2), p1.2 + p2.2) else st2)
          st)
      (some ((id, 1), (id, 1)), 2) = (some ((id, 1), (id, 1)), 2) :=
    outerFold_frozen rest ((id, 1) :: rest) (some ((id, 1), (id, 1)), 2)
      (by
        intro p1 hp1 p2 hp2
        have g1 := hge p1 (List.mem_cons_of_mem _ hp1)
        have g2 := hge p2 hp2
        intro hc
        omega)
  calc simPairsFold ((id, 1) :: rest) ((id, 1) :: rest)
      = rest.foldl
          (fun st p1 =>
            ((id, 1) :: rest : List (String × Nat)).foldl
              (fun st2 p2 =>
                if p1.1 = p2.1 ∧ p1.2 + p2.2 < st2.2 then (some (p1, p2), p1.2 + p2.2) else st2)
              st)
          (((id, 1) :: rest : List (String × Nat)).foldl
            (fun st2 p2 =>
              if ((id, 1) : String × Nat).1 = p2.1 ∧ ((id, 1) : String × Nat).2 + p2.2 < st2.2
              then (some (((id, 1) : String × Nat), p2), ((id, 1) : String × Nat).2 + p2.2) else st2)
            ((none, 2 * LeaCho_D) : Option ((String × Nat) × (String × Nat)) × Nat)) := rfl
    _ = rest.foldl
          (fun st p1 =>
            ((id, 1) :: rest : List (String × Nat)).foldl
              (fun st2 p2 =>
                if p1.1 = p2.1 ∧ p1.2 + p2.2 < st2.2 then (some (p1, p2), p1.2 + p2.2) else st2)
              st)
          (some ((id, 1), (id, 1)), 2) := by rw [hx]
    _ = (some ((id, 1), (id, 1)), 2) := hy

/-- C8: the similarity of a stored id with itself is the synonym
score: the scan settles on the common node `(id, 1)` appearing first
in both reach lists, the path length is `1 + 1 - 1 = 1`, and the real
score `-log10(1 / (2·20))` equals the `LeaCho_synonym` constant. -/
theorem claim_C8 (f : Nat) (d : Store) (id rel : String) (s : Synset)
    (h : alookup d id = some s) (hf : 1 ≤ f) :
    simLeaChoLenF f d id id rel true = some 1 ∧
      simLeaChoF f d id id rel true = LeaCho_synonym := by
  obtain ⟨g, rfl⟩ : ∃ g, f = g + 1 := ⟨f - 1, by omega⟩
  obtain ⟨rest, hr⟩ : ∃ rest, getReachF (g + 1) d id rel true 1 = (id, 1) :: rest :=
    ⟨_, by simp only [getReachF, h]; rfl⟩
  have hge : ∀ p ∈ ((id, 1) :: rest : List (String × Nat)), 1 ≤ p.2 :=
    hr ▸ getReach_dist_le (g + 1) d rel true id 1
  have hfold := simPairsFold_self id rest hge
  have hlen : simLeaChoLenF (g + 1) d id id rel true = some 1 := by
    simp only [simLeaChoLenF, hr, hfold]
  refine ⟨hlen, ?_⟩
  rw [simLeaChoF, hlen]
  norm_num [simScore, LeaCho_synonym, LeaCho_D]

/-- Witness for C8 on the concrete store `exW`. -/
theorem claim_C8_witness :
    alookup exW "A" = some exWA ∧ (1 : Nat) ≤ 5 ∧
      simLeaChoLenF 5 exW "A" "A" "hypernym" true = some 1 ∧
      simLeaChoF 5 exW "A" "A" "hypernym" true = LeaCho_synonym := by
  have h := claim_C8 5 exW "A" "hypernym" exWA rfl (by decide)
  exact ⟨rfl, by decide, h.1, h.2⟩

/-- Witness for C10: the id `Z` is absent from `exW`. -/
theorem claim_C10_witness :
    alookup exW "Z" = none ∧ (1 : Nat) ≤ 3 ∧
      traceRelationF 3 exW "Z" "hypernym" = ["Z"] ∧
      getMaxDepthF 3 exW "Z" "hypernym" = 1 ∧
      getSubGraphSizeF 3 exW "Z" "hypernym" = 1 ∧
      getReachF 3 exW "Z" "hypernym" true 1 = [] ∧
      simLeaChoLenF 3 exW "Z" "B" "hypernym" true = none ∧
      simLeaChoLenF 3 exW "B" "Z" "hypernym" true = none := by
  have h := claim_C10 exW "Z" "hypernym" 3 true rfl (by decide)
  exact ⟨rfl, by decide, h.1, h.2.1, h.2.2.1, h.2.2.2.1, h.2.2.2.2.1 "B", h.2.2.2.2.2 "B"⟩

/-! ### Rank-based termination of the recursive walks -/

theorem rank_lt_of_child {d : Store} {rel : String} {rank : String → Nat}
    (hr : RankedBy d rel rank) {id : String} {s : Synset} (halk : alookup d id = some s)
    {c : String} (hc : c ∈ lookUpRelationD d id rel) : rank c < rank id := by
  have hmem := alookup_mem halk
  simp only [lookUpRelationD, halk] at hc
  obtain ⟨p, hp, hpc⟩ := List.mem_filterMap.1 hc
  by_cases hrel : p.2 = rel
  · rw [if_pos hrel] at hpc
    cases hpc
    exact hr (id, s) hmem p hp hrel
  · rw [if_neg hrel] at hpc
    cases hpc

theorem traceRelationF_stab (d : Store) (rel : String) (rank : String → Nat)
    (hr : RankedBy d rel rank) :
    ∀ (n : Nat) (id : String), rank id ≤ n → ∀ f1 f2, rank id < f1 → rank id < f2 →
      traceRelationF f1 d id rel = traceRelationF f2 d id rel := by
  intro n
  induction n with
  | zero =>
      intro id hn f1 f2 h1 h2
      obtain ⟨g1, rfl⟩ : ∃ g, f1 = g + 1 := ⟨f1 - 1, by omega⟩
      obtain ⟨g2, rfl⟩ : ∃ g, f2 = g + 1 := ⟨f2 - 1, by omega⟩
      rw [traceRelationF, traceRelationF]
      refine congrArg (List.cons id) (flatMap_congr_mem fun c hc => ?_)
      rcases halk : alookup d id with _ | s
      · simp only [lookUpRelationD, halk] at hc
        cases hc
      · exact absurd (rank_lt_of_child hr halk hc) (by omega)
  | succ n ih =>
      intro id hn f1 f2 h1 h2
      obtain ⟨g1, rfl⟩ : ∃ g, f1 = g + 1 := ⟨f1 - 1, by omega⟩
      obtain ⟨g2, rfl⟩ : ∃ g, f2 = g + 1 := ⟨f2 - 1, by omega⟩
      rw [traceRelationF, traceRelationF]
      refine congrArg (List.cons id) (flatMap_congr_mem fun c hc => ?_)
      rcases halk : alookup d id with _ | s
      · simp only [lookUpRelationD, halk] at hc
        cases hc
      · have hlt := rank_lt_of_child hr halk hc
        exact ih c (by omega) g1 g2 (by omega) (by omega)

theorem traceRelationDF_stab (d : Store) (rel : String) (rank : String → Nat)
    (hr : RankedBy d rel rank) :
    ∀ (n : Nat) (id : String), rank id ≤ n → ∀ lev f1 f2, rank id < f1 → rank id < f2 →
      traceRelationDF f1 d id rel lev = traceRelationDF f2 d id rel lev := by
  intro n
  induction n with
  | zero =>
      intro id hn lev f1 f2 h1 h2
      obtain ⟨g1, rfl⟩ : ∃ g, f1 = g + 1 := ⟨f1 - 1, by omega⟩
      obtain ⟨g2, rfl⟩ : ∃ g, f2 = g + 1 := ⟨f2 - 1, by omega⟩
      rw [traceRelationDF, traceRelationDF]
      refine congrArg (List.cons (id, lev)) (flatMap_congr_mem fun c hc => ?_)
      rcases halk : alookup d id with _ | s
      · simp only [lookUpRelationD, halk] at hc
        cases hc
      · exact absurd (rank_lt_of_child hr halk hc) (by omega)
  | succ n ih =>
      intro id hn lev f1 f2 h1 h2
      obtain ⟨g1, rfl⟩ : ∃ g, f1 = g + 1 := ⟨f1 - 1, by omega⟩
      obtain ⟨g2, rfl⟩ : ∃ g, f2 = g + 1 := ⟨f2 - 1, by omega⟩
      rw [traceRelationDF, traceRelationDF]
      refine congrArg (List.cons (id, lev)) (flatMap_congr_mem fun c hc => ?_)
      rcases halk : alookup d id with _ | s
      · simp only [lookUpRelationD, halk] at hc
        cases hc
      · have hlt := rank_lt_of_child hr halk hc
        exact ih c (by omega) (lev + 1) g1 g2 (by omega) (by omega)

theorem getMaxDepthF_stab (d : Store) (rel : String) (rank : String → Nat)
    (hr : RankedBy d rel rank) (id : String) (f1 f2 : Nat)
    (h1 : rank id < f1) (h2 : rank id < f2) :
    getMaxDepthF f1 d id rel = getMaxDepthF f2 d id rel := by
  rw [getMaxDepthF, getMaxDepthF,
    traceRelationDF_stab d rel rank hr (rank id) id (Nat.le_refl _) 0 f1 f2 h1 h2]

theorem foldl_union_congr {F G : String → Finset String} :
    ∀ (l : List String) (acc : Finset String), (∀ c ∈ l, F c = G c) →
      l.foldl (fun a c => a ∪ F c) acc = l.foldl (fun a c => a ∪ G c) acc := by
  intro l
  induction l with
  | nil => intro acc _; rfl
  | cons c cs ih =>
      intro acc h
      rw [List.foldl_cons, List.foldl_cons, h c (List.mem_cons_self _ _)]
      exact ih _ fun x hx => h x (List.mem_cons_of_mem _ hx)

theorem trace_rel_recSF_stab (d : Store) (rel : String) (rank : String → Nat)
    (hr : RankedBy d rel rank) :
    ∀ (n : Nat) (id : String), rank id ≤ n → ∀ f1 f2, rank id < f1 → rank id < f2 →
      trace_rel_recSF f1 d id rel = trace_rel_recSF f2 d id rel := by
  intro n
  induction n with
  | zero =>
      intro id hn f1 f2 h1 h2
      obtain ⟨g1, rfl⟩ : ∃ g, f1 = g + 1 := ⟨f1 - 1, by omega⟩
      obtain ⟨g2, rfl⟩ : ∃ g, f2 = g + 1 := ⟨f2 - 1, by omega⟩
      rw [trace_rel_recSF, trace_rel_recSF]
      refine foldl_union_congr _ _ fun c hc => ?_
      rcases halk : alookup d id with _ | s
      · simp only [lookUpRelationD, halk] at hc
        cases hc
      · exact absurd (rank_lt_of_child hr halk hc) (by omega)
  | succ n ih =>
      intro id hn f1 f2 h1 h2
      obtain ⟨g1, rfl⟩ : ∃ g, f1 = g + 1 := ⟨f1 - 1, by omega⟩
      obtain ⟨g2, rfl⟩ : ∃ g, f2 = g + 1 := ⟨f2 - 1, by omega⟩
      rw [trace_rel_recSF, trace_rel_recSF]
      refine foldl_union_congr _ _ fun c hc => ?_
      rcases halk : alookup d id with _ | s
      · simp only [lookUpRelationD, halk] at hc
        cases hc
      · have hlt := rank_lt_of_child hr halk hc
        exact ih c (by omega) g1 g2 (by omega) (by omega)

theorem foldl_first_congr {F G : String → Option String} :
    ∀ (l : List String) (a : Option String), (∀ c ∈ l, F c = G c) →
      l.foldl (fun found i => if pyTruthyStr found then found else F i) a =
        l.foldl (fun found i => if pyTruthyStr found then found else G i) a := by
  intro l
  induction l with
  | nil => intro a _; rfl
  | cons c cs ih =>
      intro a h
      rw [List.foldl_cons, List.foldl_cons, h c (List.mem_cons_self _ _)]
      exact ih _ fun x hx => h x (List.mem_cons_of_mem _ hx)

theorem isIDConnectedWithF_stab (d : Store) (rel : String) (rank : String → Nat)
    (hr : RankedBy d rel rank) (targ : List String) :
    ∀ (n : Nat) (id : String), rank id ≤ n → ∀ f1 f2, rank id < f1 → rank id < f2 →
      isIDConnectedWithF f1 d id rel targ = isIDConnectedWithF f2 d id rel targ := by
  intro n
  induction n with
  | zero =>
      intro id hn f1 f2 h1 h2
      obtain ⟨g1, rfl⟩ : ∃ g, f1 = g + 1 := ⟨f1 - 1, by omega⟩
      obtain ⟨g2, rfl⟩ : ∃ g, f2 = g + 1 := ⟨f2 - 1, by omega⟩
      rw [isIDConnectedWithF, isIDConnectedWithF]
      by_cases hmem : id ∈ targ
      · rw [if_pos hmem, if_pos hmem]
      · rw [if_neg hmem, if_neg hmem]
        refine foldl_first_congr _ _ fun c hc => ?_
        rcases halk : alookup d id with _ | s
        · simp only [lookUpRelationD, halk] at hc
          cases hc
        · exact absurd (rank_lt_of_child hr halk hc) (by omega)
  | succ n ih =>
      intro id hn f1 f2 h1 h2
      obtain ⟨g1, rfl⟩ : ∃ g, f1 = g + 1 := ⟨f1 - 1, by omega⟩
      obtain ⟨g2, rfl⟩ : ∃ g, f2 = g + 1 := ⟨f2 - 1, by omega⟩
      rw [isIDConnectedWithF, isIDConnectedWithF]
      by_cases hmem : id ∈ targ
      · rw [if_pos hmem, if_pos hmem]
      · rw [if_neg hmem, if_neg hmem]
        refine foldl_first_congr _ _ fun c hc => ?_
        rcases halk : alookup d id with _ | s
        · simp only [lookUpRelationD, halk] at hc
          cases hc
        · have hlt := rank_lt_of_child hr halk hc
          exact ih c (by omega) g1 g2 (by omega) (by omega)

theorem any_congr_mem {α : Type} {l : List α} {f g : α → Bool}
    (h : ∀ a ∈ l, f a = g a) : l.any f = l.any g := by
  induction l with
  | nil => rfl
  | cons a as ih =>
      simp only [List.any_cons]
      rw [h a (List.mem_cons_self _ _), ih fun x hx => h x (List.mem_cons_of_mem _ hx)]

theorem isLiteralCompatibleWithSynsetF_stab (d : Store) (rank : String → Nat)
    (hr : RankedBy d "hyponym" rank) (lit : String) :
    ∀ (n : Nat) (id : String), rank id ≤ n → ∀ f1 f2, rank id < f1 → rank id < f2 →
      isLiteralCompatibleWithSynsetF f1 d lit id true =
        isLiteralCompatibleWithSynsetF f2 d lit id true := by
  intro n
  induction n with
  | zero =>
      intro id hn f1 f2 h1 h2
      obtain ⟨g1, rfl⟩ : ∃ g, f1 = g + 1 := ⟨f1 - 1, by omega⟩
      obtain ⟨g2, rfl⟩ : ∃ g, f2 = g + 1 := ⟨f2 - 1, by omega⟩
      rcases halk : alookup d id with _ | syns
      · rw [isLiteralCompatibleWithSynsetF, isLiteralCompatibleWithSynsetF, halk]
      · simp only [isLiteralCompatibleWithSynsetF, halk, eq_self_iff_true, if_true]
        have hany : syns.ilrs.any
              (fun p => decide (p.2 = "hyponym") &&
                isLiteralCompatibleWithSynsetF g1 d lit p.1 true) =
            syns.ilrs.any
              (fun p => decide (p.2 = "hyponym") &&
                isLiteralCompatibleWithSynsetF g2 d lit p.1 true) := by
          refine any_congr_mem fun p hp => ?_
          by_cases hrel : p.2 = "hyponym"
          · exact absurd (show rank p.1 < rank id from
              hr (id, syns) (alookup_mem halk) p hp hrel) (by omega)
          · simp [hrel]
        rw [hany]
  | succ n ih =>
      intro id hn f1 f2 h1 h2
      obtain ⟨g1, rfl⟩ : ∃ g, f1 = g + 1 := ⟨f1 - 1, by omega⟩
      obtain ⟨g2, rfl⟩ : ∃ g, f2 = g + 1 := ⟨f2 - 1, by omega⟩
      rcases halk : alookup d id with _ | syns
      · rw [isLiteralCompatibleWithSynsetF, isLiteralCompatibleWithSynsetF, halk]
      · simp only [isLiteralCompatibleWithSynsetF, halk, eq_self_iff_true, if_true]
        have hany : syns.ilrs.any
              (fun p => decide (p.2 = "hyponym") &&
                isLiteralCompatibleWithSynsetF g1 d lit p.1 true) =
            syns.ilrs.any
              (fun p => decide (p.2 = "hyponym") &&
                isLiteralCompatibleWithSynsetF g2 d lit p.1 true) := by
          refine any_congr_mem fun p hp => ?_
          by_cases hrel : p.2 = "hyponym"
          · have hlt : rank p.1 < rank id := hr (id, syns) (alookup_mem halk) p hp hrel
            rw [ih p.1 (by omega) g1 g2 (by omega) (by omega)]
          · simp [hrel]
        rw [hany]

/-! ### C6: termination of the recursive walks on acyclic graphs -/

/-- C6: on a relation subgraph that is acyclic (witnessed by a rank
function strictly decreasing along edges; `rankH` plays that role for
the hard-coded `hyponym` relation of the literal-compatibility walk),
every recursive walk stabilises: its fuel-indexed computation returns
the same value for all sufficient fuel, i.e. the Python recursions
`traceRelation`, `traceRelationD`, `getMaxDepth`, `getSubGraphSize`,
`isIDConnectedWith` and `isLiteralCompatibleWithSynset` terminate and
define total functions.  The walks carry no visited set, so this rests
solely on the rank hypothesis; in addition the trace always starts
with the start id (hence has length at least one). -/
theorem claim_C6 (d : Store) (rel : String) (rank rankH : String → Nat)
    (hr : RankedBy d rel rank) (hrH : RankedBy d "hyponym" rankH)
    (id lit : String) (targ : List String) (f1 f2 : Nat)
    (h1 : rank id < f1) (h2 : rank id < f2)
    (hH1 : rankH id < f1) (hH2 : rankH id < f2) :
    traceRelationF f1 d id rel = traceRelationF f2 d id rel ∧
    traceRelationDF f1 d id rel 0 = traceRelationDF f2 d id rel 0 ∧
    getMaxDepthF f1 d id rel = getMaxDepthF f2 d id rel ∧
    getSubGraphSizeF f1 d id rel = getSubGraphSizeF f2 d id rel ∧
    isIDConnectedWithF f1 d id rel targ = isIDConnectedWithF f2 d id rel targ ∧
    isLiteralCompatibleWithSynsetF f1 d lit id true =
      isLiteralCompatibleWithSynsetF f2 d lit id true ∧
    (traceRelationF f1 d id rel).head? = some id := by
  refine ⟨traceRelationF_stab d rel rank hr (rank id) id (Nat.le_refl _) f1 f2 h1 h2,
    traceRelationDF_stab d rel rank hr (rank id) id (Nat.le_refl _) 0 f1 f2 h1 h2,
    getMaxDepthF_stab d rel rank hr id f1 f2 h1 h2, ?_,
    isIDConnectedWithF_stab d rel rank hr targ (rank id) id (Nat.le_refl _) f1 f2 h1 h2,
    isLiteralCompatibleWithSynsetF_stab d rankH hrH lit (rankH id) id (Nat.le_refl _)
      f1 f2 hH1 hH2, ?_⟩
  · rw [getSubGraphSizeF, getSubGraphSizeF,
      trace_rel_recSF_stab d rel rank hr (rank id) id (Nat.le_refl _) f1 f2 h1 h2]
  · obtain ⟨g1, rfl⟩ : ∃ g, f1 = g + 1 := ⟨f1 - 1, by omega⟩
    rw [traceRelationF]
    rfl

/-- Witness for C6 on the concrete acyclic store `exW`. -/
theorem claim_C6_witness :
    RankedBy exW "hypernym" exWrank ∧ exWrank "A" < 3 ∧ exWrank "A" < 4 ∧
      (traceRelationF 3 exW "A" "hypernym" = traceRelationF 4 exW "A" "hypernym" ∧
        traceRelationDF 3 exW "A" "hypernym" 0 = traceRelationDF 4 exW "A" "hypernym" 0 ∧
        getMaxDepthF 3 exW "A" "hypernym" = getMaxDepthF 4 exW "A" "hypernym" ∧
        getSubGraphSizeF 3 exW "A" "hypernym" = getSubGraphSizeF 4 exW "A" "hypernym" ∧
        isIDConnectedWithF 3 exW "A" "hypernym" ["B"] =
          isIDConnectedWithF 4 exW "A" "hypernym" ["B"] ∧
        isLiteralCompatibleWithSynsetF 3 exW "dog" "A" true =
          isLiteralCompatibleWithSynsetF 4 exW "dog" "A" true ∧
        (traceRelationF 3 exW "A" "hypernym").head? = some "A") :=
  ⟨by decide, by decide, by decide,
   claim_C6 exW "hypernym" exWrank (fun _ => 0) (by decide) (by decide) "A" "dog" ["B"] 3 4
     (by decide) (by decide) (by decide) (by decide)⟩

/-! ### C7: subgraph size -/

theorem subset_foldl_union (F : String → Finset String) (l : List String) :
    ∀ acc : Finset String, acc ⊆ l.foldl (fun a c => a ∪ F c) acc := by
  induction l with
  | nil => intro acc; exact Finset.Subset.refl _
  | cons c cs ih =>
      intro acc
      rw [List.foldl_cons]
      exact Finset.subset_union_left.trans (ih (acc ∪ F c))

theorem mem_foldl_union (F : String → Finset String) (l : List String) (c : String)
    (hc : c ∈ l) : ∀ acc : Finset String, F c ⊆ l.foldl (fun a x => a ∪ F x) acc := by
  induction l with
  | nil => cases hc
  | cons x xs ih =>
      intro acc
      rw [List.foldl_cons]
      rcases List.mem_cons.1 hc with rfl | hc2
      · exact Finset.subset_union_right.trans (subset_foldl_union F xs (acc ∪ F c))
      · exact ih hc2 (acc ∪ F x)

theorem recSF_self_mem (d : Store) (rel id : String) (f : Nat) (hf : 1 ≤ f) :
    id ∈ trace_rel_recSF f d id rel := by
  obtain ⟨g, rfl⟩ : ∃ g, f = g + 1 := ⟨f - 1, by omega⟩
  rw [trace_rel_recSF]
  exact subset_foldl_union _ _ {id} (Finset.mem_singleton_self id)

theorem recSF_eq_toFinset (d : Store) (rel : String) :
    ∀ (f : Nat) (id : String),
      trace_rel_recSF f d id rel = (traceRelationF f d id rel).toFinset := by
  intro f
  induction f with
  | zero => intro id; simp [trace_rel_recSF, traceRelationF]
  | succ g ih =>
      intro id
      rw [trace_rel_recSF, traceRelationF, List.toFinset_cons]
      have haux : ∀ (l : List String) (acc : Finset String),
          l.foldl (fun a i => a ∪ trace_rel_recSF g d i rel) acc
            = acc ∪ (l.flatMap (fun i => traceRelationF g d i rel)).toFinset := by
        intro l
        induction l with
        | nil => intro acc; simp
        | cons c cs ihl =>
            intro acc
            rw [List.foldl_cons, ihl, List.flatMap_cons, List.toFinset_append, ih c,
              Finset.union_assoc]
      rw [haux, Finset.insert_eq]

/-- C7: `getSubGraphSize` equals the cardinality of the set of ids
visited by the recursive walk (each id counted once however many
paths reach it), and it equals 1 exactly when the start id has no
outgoing edge of the relation type. -/
theorem claim_C7 (d : Store) (rel : String) (rank : String → Nat) (id : String) (f : Nat)
    (hr : RankedBy d rel rank) (hf : rank id < f) :
    (getSubGraphSizeF f d id rel = 1 ↔ lookUpRelationD d id rel = []) ∧
    getSubGraphSizeF f d id rel = (traceRelationF f d id rel).toFinset.card := by
  obtain ⟨g, rfl⟩ : ∃ g, f = g + 1 := ⟨f - 1, by omega⟩
  refine ⟨⟨?_, ?_⟩, by rw [getSubGraphSizeF, recSF_eq_toFinset]⟩
  · intro h1
    rcases hc : lookUpRelationD d id rel with _ | ⟨c, cs⟩
    · rfl
    · exfalso
      have hcmem : c ∈ lookUpRelationD d id rel := by
        rw [hc]
        exact List.mem_cons_self _ _
      rcases halk : alookup d id with _ | s
      · rw [lookUpRelationD, halk] at hc
        cases hc
      · have hlt := rank_lt_of_child hr halk hcmem
        have hcid : c ≠ id := by
          intro hcontra
          rw [hcontra] at hlt
          omega
        have hidmem : id ∈ trace_rel_recSF (g + 1) d id rel :=
          recSF_self_mem d rel id (g + 1) (by omega)
        have hcmem2 : c ∈ trace_rel_recSF (g + 1) d id rel := by
          rw [trace_rel_recSF]
          refine mem_foldl_union _ _ c hcmem {id} ?_
          exact recSF_self_mem d rel c g (by omega)
        have hsub : ({c, id} : Finset String) ⊆ trace_rel_recSF (g + 1) d id rel := by
          intro x hx
          rcases Finset.mem_insert.1 hx with rfl | hx2
          · exact hcmem2
          · rw [Finset.mem_singleton.1 hx2]
            exact hidmem
        have hcard : 2 ≤ (trace_rel_recSF (g + 1) d id rel).card := by
          have h2 : ({c, id} : Finset String).card = 2 := by
            rw [Finset.card_insert_of_not_mem (by simp [hcid]), Finset.card_singleton]
          rw [← h2]
          exact Finset.card_le_card hsub
        rw [getSubGraphSizeF] at h1
        omega
  · intro h1
    rw [getSubGraphSizeF, trace_rel_recSF, h1]
    simp

/-- Witness for C7 on the concrete store `exW`. -/
theorem claim_C7_witness :
    RankedBy exW "hypernym" exWrank ∧ exWrank "A" < 3 ∧
      ((getSubGraphSizeF 3 exW "A" "hypernym" = 1 ↔ lookUpRelationD exW "A" "hypernym" = []) ∧
        getSubGraphSizeF 3 exW "A" "hypernym" =
          (traceRelationF 3 exW "A" "hypernym").toFinset.card) :=
  ⟨by decide, by decide, claim_C7 exW "hypernym" exWrank "A" 3 (by decide) (by decide)⟩

/-! ### C9: the score-keyed similarity result dict -/

theorem dictGet_dictUpd {α : Type} [DecidableEq α] :
    ∀ (m : List (α × String × String)) (k0 k : α) (v : String × String),
      dictGet (dictUpd m k0 v) k = if k0 = k then some v else dictGet m k := by
  intro m
  induction m with
  | nil =>
      intro k0 k v
      by_cases hk : k0 = k
      · simp [dictUpd, dictGet, hk]
      · simp [dictUpd, dictGet, hk]
  | cons p rest ih =>
      intro k0 k v
      obtain ⟨kp, vp⟩ := p
      by_cases h0 : kp = k0
      · subst h0
        have hupd : dictUpd ((kp, vp) :: rest) kp v = (kp, v) :: rest := by
          rw [dictUpd, if_pos rfl]
        rw [hupd]
        by_cases hk : kp = k
        · rw [dictGet, if_pos hk, if_pos hk]
        · rw [dictGet, if_neg hk, if_neg hk, dictGet, if_neg hk]
      · have hupd : dictUpd ((kp, vp) :: rest) k0 v = (kp, vp) :: dictUpd rest k0 v := by
          rw [dictUpd, if_neg h0]
        rw [hupd]
        by_cases hk : kp = k
        · have hne : k0 ≠ k := fun hc => h0 (hk.trans hc.symm)
          rw [dictGet, if_pos hk, if_neg hne, dictGet, if_pos hk]
        · rw [dictGet, if_neg hk, ih, dictGet, if_neg hk]

theorem getLast?_cons_or {α : Type} (a : α) (l : List α) :
    (a :: l).getLast? = l.getLast?.or (some a) := by
  induction l generalizing a with
  | nil => rfl
  | cons b bs ih =>
      rw [List.getLast?_cons_cons, ih b]
      rcases hx : bs.getLast? with _ | c <;> simp [Option.or]

theorem dictGet_foldl_upd {α β : Type} [DecidableEq α] (key : β → α)
    (val : β → String × String) :
    ∀ (ps : List β) (m : List (α × String × String)) (k : α),
      dictGet (ps.foldl (fun m2 p => dictUpd m2 (key p) (val p)) m) k =
        (((ps.filter fun p => decide (key p = k)).map val).getLast?).or (dictGet m k) := by
  intro ps
  induction ps with
  | nil => intro m k; rfl
  | cons p ps ih =>
      intro m k
      rw [List.foldl_cons, ih]
      by_cases hk : key p = k
      · rw [List.filter_cons_of_pos (by simp [hk]), List.map_cons, getLast?_cons_or,
          dictGet_dictUpd, if_pos hk]
        rcases hx : ((ps.filter fun p => decide (key p = k)).map val).getLast? with _ | c <;>
          simp [Option.or]
      · rw [List.filter_cons_of_neg (by simp [hk]), dictGet_dictUpd, if_neg hk]

theorem foldl_flatMap_pairs {α β γ : Type} (l1 : List α) (l2 : List β) (g : γ → α × β → γ) :
    ∀ init, ((l1.flatMap fun i => l2.map fun j => (i, j)).foldl g init) =
      l1.foldl (fun m i => l2.foldl (fun m2 j => g m2 (i, j)) m) init := by
  induction l1 with
  | nil => intro init; rfl
  | cons a rest ih =>
      intro init
      rw [List.flatMap_cons, List.foldl_append, List.foldl_map, ih, List.foldl_cons]

/-- C9: `similarityLeacockChodorow` builds its result as a dict keyed
by the score (represented here by the path-length outcome, of which
the floating score `-log10(L / 2D)` is an injective function): the
value stored under any score is the pair produced *last* in the
iteration order — senses of the first literal outer, senses of the
second literal inner — so of several sense pairs with numerically
identical scores only the last one survives. -/
theorem claim_C9 (q : WNQuery) (lit1 lit2 pos rel : String) (addTop : Bool) (f : Nat)
    (l1 l2 : List Synset) (d : Store)
    (h1 : q.lookUpLiteral lit1 pos = .ok l1)
    (h2 : q.lookUpLiteral lit2 pos = .ok l2)
    (hd : q.dat pos = .ok d) (k : Option Nat) :
    q.similarityLeacockChodorow lit1 lit2 pos rel addTop f =
      .ok (simLCresults f d l1 l2 rel addTop) ∧
    dictGet (simLCresults f d l1 l2 rel addTop) k =
      (((l1.flatMap fun i => l2.map fun j => (i, j)).filter
          (fun p => decide (simLeaChoLenF f d p.1.wnid p.2.wnid rel addTop = k))).map
        (fun p => (p.1.wnid, p.2.wnid))).getLast? := by
  constructor
  · rw [WNQuery.similarityLeacockChodorow, h1, h2, hd]
    rfl
  · have hfold : simLCresults f d l1 l2 rel addTop =
        (l1.flatMap fun i => l2.map fun j => (i, j)).foldl
          (fun m p => dictUpd m (simLeaChoLenF f d p.1.wnid p.2.wnid rel addTop)
            (p.1.wnid, p.2.wnid)) [] :=
      (foldl_flatMap_pairs l1 l2
        (fun m p => dictUpd m (simLeaChoLenF f d p.1.wnid p.2.wnid rel addTop)
          (p.1.wnid, p.2.wnid)) []).symm
    rw [hfold, dictGet_foldl_upd]
    rw [show dictGet ([] : List (Option Nat × String × String)) k = none from rfl]
    rcases hx : ((((l1.flatMap fun i => l2.map fun j => (i, j)).filter
        (fun p => decide (simLeaChoLenF f d p.1.wnid p.2.wnid rel addTop = k))).map
      (fun p => (p.1.wnid, p.2.wnid))).getLast?) with _ | c
    · rw [hx]
      rfl
    · rw [hx]
      rfl

/-- Witness for C9 on the loaded store `exQ9`: the sense pairs
`(N1, N2)` and `(N2, N1)` both score path length 3; the result dict
keeps the later pair `(N2, N1)`. -/
theorem claim_C9_witness :
    exQ9.lookUpLiteral "w1" "n" = .ok [exRec1, exRec2] ∧
      exQ9.lookUpLiteral "w2" "n" = .ok [exRec1, exRec2] ∧
      exQ9.dat "n" = .ok exQ9.m_ndat ∧
      dictGet (simLCresults 5 exQ9.m_ndat [exRec1, exRec2] [exRec1, exRec2] "hypernym" true)
          (some 3) = some ("N2", "N1") ∧
      (exQ9.similarityLeacockChodorow "w1" "w2" "n" "hypernym" true 5 =
          .ok (simLCresults 5 exQ9.m_ndat [exRec1, exRec2] [exRec1, exRec2] "hypernym" true) ∧
        dictGet (simLCresults 5 exQ9.m_ndat [exRec1, exRec2] [exRec1, exRec2] "hypernym" true)
            (some 3) =
          ((([exRec1, exRec2].flatMap fun i => [exRec1, exRec2].map fun j => (i, j)).filter
              (fun p => decide (simLeaChoLenF 5 exQ9.m_ndat p.1.wnid p.2.wnid "hypernym" true =
                some 3))).map
            (fun p => (p.1.wnid, p.2.wnid))).getLast?) :=
  ⟨rfl, rfl, rfl, by decide,
   claim_C9 exQ9 "w1" "w2" "n" "hypernym" true 5 [exRec1, exRec2] [exRec1, exRec2]
     exQ9.m_ndat rfl rfl rfl (some 3)⟩

/-! ### Store extension: what the inversion pass can do to a store -/

theorem synExt_refl (s : Synset) : SynExt s s :=
  ⟨rfl, rfl, rfl, rfl, [], by simp⟩

theorem synExt_trans {s t u : Synset} (h1 : SynExt s t) (h2 : SynExt t u) : SynExt s u := by
  obtain ⟨w1, p1, d1, y1, e1, i1⟩ := h1
  obtain ⟨w2, p2, d2, y2, e2, i2⟩ := h2
  exact ⟨w2.trans w1, p2.trans p1, d2.trans d1, y2.trans y1, e1 ++ e2, by
    rw [i2, i1, List.append_assoc]⟩

theorem storeExt_refl (d : Store) : StoreExt d d :=
  List.forall₂_same.2 fun p _ => ⟨rfl, synExt_refl p.2⟩

theorem storeExt_trans {d1 d2 d3 : Store} (h1 : StoreExt d1 d2) (h2 : StoreExt d2 d3) :
    StoreExt d1 d3 := by
  induction h1 generalizing d3 with
  | nil => cases h2; exact List.Forall₂.nil
  | cons hpq hrest ih =>
      cases h2 with
      | cons hqr hrest2 =>
          exact List.Forall₂.cons ⟨hqr.1.trans hpq.1, synExt_trans hpq.2 hqr.2⟩ (ih hrest2)

theorem storeExt_map_fst {d e : Store} (h : StoreExt d e) :
    e.map Prod.fst = d.map Prod.fst := by
  induction h with
  | nil => rfl
  | cons hpq hrest ih => simp [ih, hpq.1]

theorem storeExt_alookup_none {d e : Store} (h : StoreExt d e) {k : String}
    (hk : alookup d k = none) : alookup e k = none := by
  rw [alookup_eq_none_iff, storeExt_map_fst h]
  exact alookup_eq_none_iff.1 hk

theorem storeExt_alookup_some {d e : Store} (h : StoreExt d e) {k : String} {s : Synset}
    (hk : alookup d k = some s) : ∃ t, alookup e k = some t ∧ SynExt s t := by
  induction h with
  | nil => simp [alookup] at hk
  | cons hpq hrest ih =>
      rename_i p q dr er
      by_cases hpk : p.1 = k
      · rw [alookup, if_pos hpk] at hk
        cases hk
        exact ⟨q.2, by rw [alookup, if_pos (hpq.1.trans hpk)], hpq.2⟩
      · rw [alookup, if_neg hpk] at hk
        obtain ⟨t, ht, hst⟩ := ih hk
        exact ⟨t, by
          rw [alookup, if_neg (fun hc => hpk (hpq.1 ▸ hc))]
          exact ht, hst⟩

theorem storeExt_updateIlrs (d : Store) (k : String) (e : String × String) :
    StoreExt d (updateIlrs d k e) := by
  induction d with
  | nil => exact List.Forall₂.nil
  | cons p rest ih =>
      simp only [updateIlrs, List.map_cons]
      refine List.Forall₂.cons ?_ ih
      by_cases hp : p.1 = k
      · rw [if_pos hp]
        exact ⟨rfl, rfl, rfl, rfl, rfl, [e], rfl⟩
      · rw [if_neg hp]
        exact ⟨rfl, synExt_refl p.2⟩

theorem storeExt_edgeCount_le {d e : Store} (h : StoreExt d e) (k : String)
    (ed : String × String) : edgeCount d k ed ≤ edgeCount e k ed := by
  rcases hk : alookup d k with _ | s
  · simp [edgeCount, hk]
  · obtain ⟨t, ht, hst⟩ := storeExt_alookup_some h hk
    obtain ⟨_, _, _, _, ext, hilrs⟩ := hst
    simp only [edgeCount, hk, ht, hilrs, List.count_append]
    omega

theorem storeExt_invEdgeStep (key w : String) (acc : Store × List Warning)
    (ed : String × String) : StoreExt acc.1 (invEdgeStep key w acc ed).1 := by
  rw [invEdgeStep]
  rcases alookup invRelTable ed.2 with _ | invr
  · exact storeExt_refl _
  · rcases alookup acc.1 ed.1 with _ | tt
    · exact storeExt_refl _
    · dsimp only
      by_cases hw : tt.wnid = w
      · rw [if_pos hw]
        exact storeExt_refl _
      · rw [if_neg hw]
        exact storeExt_updateIlrs _ _ _

theorem storeExt_foldl_invEdge (key w : String) (edges : List (String × String)) :
    ∀ acc : Store × List Warning,
      StoreExt acc.1 ((edges.foldl (invEdgeStep key w) acc)).1 := by
  induction edges with
  | nil => intro acc; exact storeExt_refl _
  | cons e rest ih =>
      intro acc
      rw [List.foldl_cons]
      exact storeExt_trans (storeExt_invEdgeStep key w acc e) (ih _)

theorem storeExt_invSynsetStep (acc : Store × List Warning) (key : String) :
    StoreExt acc.1 (invSynsetStep acc key).1 := by
  rw [invSynsetStep]
  rcases alookup acc.1 key with _ | val
  · exact storeExt_refl _
  · exact storeExt_foldl_invEdge key val.wnid _ acc

theorem storeExt_foldl_invSynset (keys : List String) :
    ∀ acc : Store × List Warning,
      StoreExt acc.1 ((keys.foldl invSynsetStep acc)).1 := by
  induction keys with
  | nil => intro acc; exact storeExt_refl _
  | cons k rest ih =>
      intro acc
      rw [List.foldl_cons]
      exact storeExt_trans (storeExt_invSynsetStep acc k) (ih _)

theorem storeExt_inv_rel_pos (d : Store) : StoreExt d (inv_rel_pos d).1 :=
  storeExt_foldl_invSynset (pySort strLe (d.map Prod.fst)) (d, [])

theorem alookup_updateIlrs_self {d : Store} {k : String} {s : Synset} (e : String × String)
    (h : alookup d k = some s) :
    alookup (updateIlrs d k e) k = some { s with ilrs := s.ilrs ++ [e] } := by
  induction d with
  | nil => simp [alookup] at h
  | cons p rest ih =>
      by_cases hp : p.1 = k
      · rw [alookup, if_pos hp] at h
        cases h
        simp only [updateIlrs, List.map_cons, if_pos hp]
        rw [alookup, if_pos hp]
      · rw [alookup, if_neg hp] at h
        simp only [updateIlrs, List.map_cons, if_neg hp]
        rw [alookup, if_neg hp]
        exact ih h

theorem edgeCount_updateIlrs_self {d : Store} {k : String} {s : Synset}
    (ed : String × String) (h : alookup d k = some s) :
    edgeCount (updateIlrs d k ed) k ed = edgeCount d k ed + 1 := by
  simp only [edgeCount, h, alookup_updateIlrs_self ed h, List.count_append]
  simp [List.count_singleton]

/-! ### C3: what the inversion pass adds -/

/-- C3 counterexample: the claim says only edges present before the
pass are inverted — exactly one appended inverse per qualifying edge,
independent of the processing order.  In `exC3` (`A --near_antonym-->
B`, keys processed in sorted order) the pass first appends the inverse
`(A, near_antonym)` to `B`; when `B`'s turn comes, its relation list
is re-read, the freshly added inverse qualifies too, and a second
generation edge `(B, near_antonym)` is appended back onto `A` — so
`A`'s list ends as two copies of `("B", "near_antonym")` instead of
the claimed unchanged `[("B", "near_antonym")]`, and the final graph
content depends on the iteration order. -/
theorem claim_C3_cex :
    (alookup exC3 "A").map Synset.ilrs = some [("B", "near_antonym")] ∧
      (alookup (inv_rel_pos exC3).1 "A").map Synset.ilrs =
        some [("B", "near_antonym"), ("B", "near_antonym")] ∧
      (alookup (inv_rel_pos exC3).1 "A").map Synset.ilrs ≠ some [("B", "near_antonym")] ∧
      (alookup (inv_rel_pos exC3).1 "B").map Synset.ilrs = some [("A", "near_antonym")] :=
  ⟨rfl, by decide, by decide, by decide⟩

/-- C3 (amended): every edge `(t, r)` present before the pass whose
type is invertible, whose target is stored, and whose target's id
differs from the source's id contributes *at least* one appended
inverse edge `(src, inv r)` to the target's relation list.  It is not
exactly one and not only those: inverse edges appended onto synsets
whose sorted position comes after their source are re-read when that
synset is processed, so self-inverse relation types generate further
edges and the final graph content (not only the warning order)
depends on the iteration order. -/
theorem claim_C3 (d : Store) (src t r invr : String) (s tt : Synset)
    (hsrc : alookup d src = some s)
    (he : (t, r) ∈ s.ilrs)
    (hinv : alookup invRelTable r = some invr)
    (htgt : alookup d t = some tt)
    (hneq : tt.wnid ≠ s.wnid) :
    edgeCount d t (src, invr) + 1 ≤ edgeCount (inv_rel_pos d).1 t (src, invr) := by
  have hsrcmem : src ∈ pySort strLe (d.map Prod.fst) :=
    mem_pySort.2 (List.mem_map.2 ⟨(src, s), alookup_mem hsrc, rfl⟩)
  obtain ⟨ks1, ks2, hkeys⟩ := List.append_of_mem hsrcmem
  rw [inv_rel_pos, hkeys, List.foldl_append, List.foldl_cons]
  set acc1 := ks1.foldl invSynsetStep (d, ([] : List Warning)) with hacc1
  have hext1 : StoreExt d acc1.1 := storeExt_foldl_invSynset ks1 (d, [])
  obtain ⟨val, hval, hvext⟩ := storeExt_alookup_some hext1 hsrc
  obtain ⟨hwv, _, _, _, vext, hvilrs⟩ := hvext
  have hstep : invSynsetStep acc1 src =
      (pySort pairLe val.ilrs).foldl (invEdgeStep src val.wnid) acc1 := by
    rw [invSynsetStep, hval]
  rw [hstep]
  have hemem : ((t, r) : String × String) ∈ pySort pairLe val.ilrs :=
    mem_pySort.2 (by rw [hvilrs]; exact List.mem_append_left _ he)
  obtain ⟨es1, es2, hedges⟩ := List.append_of_mem hemem
  rw [hedges, List.foldl_append, List.foldl_cons]
  set acc2 := es1.foldl (invEdgeStep src val.wnid) acc1 with hacc2
  have hext2 : StoreExt d acc2.1 :=
    storeExt_trans hext1 (storeExt_foldl_invEdge src val.wnid es1 acc1)
  obtain ⟨tt2, htt2, htt2ext⟩ := storeExt_alookup_some hext2 htgt
  have hw2 : tt2.wnid = tt.wnid := htt2ext.1
  have hne2 : ¬tt2.wnid = val.wnid := by
    rw [hw2, hwv]
    exact hneq
  have hinv2 : alookup invRelTable ((t, r) : String × String).2 = some invr := hinv
  have htgt2 : alookup acc2.1 ((t, r) : String × String).1 = some tt2 := htt2
  have hstep2 : (invEdgeStep src val.wnid acc2 (t, r)).1 = updateIlrs acc2.1 t (src, invr) := by
    rw [invEdgeStep, hinv2, htgt2]
    dsimp only
    rw [if_neg hne2]
  have hcount2 : edgeCount d t (src, invr) + 1 ≤
      edgeCount (invEdgeStep src val.wnid acc2 (t, r)).1 t (src, invr) := by
    rw [hstep2, edgeCount_updateIlrs_self (src, invr) htt2]
    have := storeExt_edgeCount_le hext2 t (src, invr)
    omega
  have hext3 := storeExt_foldl_invEdge src val.wnid es2 (invEdgeStep src val.wnid acc2 (t, r))
  have hext4 := storeExt_foldl_invSynset ks2
    (es2.foldl (invEdgeStep src val.wnid) (invEdgeStep src val.wnid acc2 (t, r)))
  have hc3 := storeExt_edgeCount_le hext3 t (src, invr)
  have hc4 := storeExt_edgeCount_le hext4 t (src, invr)
  omega

/-- Witness for the amended C3 on the concrete store `exC3`. -/
theorem claim_C3_witness :
    alookup exC3 "A" = some exC3A ∧ ("B", "near_antonym") ∈ exC3A.ilrs ∧
      alookup invRelTable "near_antonym" = some "near_antonym" ∧
      alookup exC3 "B" = some exC3B ∧ exC3B.wnid ≠ exC3A.wnid ∧
      edgeCount exC3 "B" ("A", "near_antonym") + 1 ≤
        edgeCount (inv_rel_pos exC3).1 "B" ("A", "near_antonym") :=
  ⟨rfl, by decide, rfl, rfl, by decide,
   claim_C3 exC3 "A" "B" "near_antonym" "near_antonym" exC3A exC3B rfl (by decide) rfl rfl
     (by decide)⟩

/-! ### C5: the literal index is exactly the derived mapping -/

theorem idxGet_idxAppend (ix : Index) (l w : String) :
    ∀ l' : String, idxGet (idxAppend ix l w) l' =
      if l' = l then idxGet ix l' ++ [w] else idxGet ix l' := by
  induction ix with
  | nil =>
      intro l'
      by_cases h : l' = l
      · subst h
        simp [idxAppend, idxGet, alookup]
      · simp [idxAppend, idxGet, alookup, h, Ne.symm h]
  | cons p rest ih =>
      intro l'
      obtain ⟨k, v⟩ := p
      by_cases hk : k = l
      · subst hk
        by_cases h' : l' = k
        · subst h'
          simp [idxAppend, idxGet, alookup]
        · simp [idxAppend, idxGet, alookup, h', Ne.symm h']
      · have hstep : idxAppend ((k, v) :: rest) l w = (k, v) :: idxAppend rest l w := by
          rw [idxAppend, if_neg hk]
        rw [hstep]
        by_cases h' : k = l'
        · subst h'
          simp [idxGet, alookup, hk]
        · have h1 : idxGet ((k, v) :: idxAppend rest l w) l' = idxGet (idxAppend rest l w) l' := by
            rw [idxGet, alookup, if_neg h']
            rfl
          have h2 : idxGet ((k, v) :: rest) l' = idxGet rest l' := by
            rw [idxGet, alookup, if_neg h']
            rfl
          rw [h1, ih l', h2]

theorem idxGet_foldAppend (w : String) :
    ∀ (syns : List Synonym) (ix : Index) (l : String),
      idxGet (syns.foldl (fun acc y => idxAppend acc y.literal w) ix) l =
        idxGet ix l ++ syns.filterMap (fun y => if y.literal = l then some w else none) := by
  intro syns
  induction syns with
  | nil => intro ix l; simp
  | cons y ys ih =>
      intro ix l
      rw [List.foldl_cons, ih, idxGet_idxAppend]
      by_cases h : l = y.literal
      · rw [if_pos h]
        have hy : (if y.literal = l then some w else (none : Option String)) = some w := by
          rw [if_pos h.symm]
        simp only [List.filterMap_cons, hy]
        rw [List.append_assoc, List.singleton_append]
      · rw [if_neg h]
        have hy : (if y.literal = l then some w else (none : Option String)) = none := by
          rw [if_neg (fun hc => h hc.symm)]
        simp only [List.filterMap_cons, hy]

theorem indexOf_append (d : Store) (w : String) (syns : Synset) (l : String) :
    indexOf (d ++ [(w, syns)]) l =
      indexOf d l ++ syns.synonyms.filterMap
        (fun y => if y.literal = l then some syns.wnid else none) := by
  simp [indexOf, List.flatMap_append]

theorem goodPos_insert {d : Store} {ix : Index} (h : GoodPos d ix) (syns : Synset)
    (habs : alookup d syns.wnid = none) :
    GoodPos (d ++ [(syns.wnid, syns)])
      (syns.synonyms.foldl (fun acc y => idxAppend acc y.literal syns.wnid) ix) := by
  obtain ⟨hwk, hnd, hix⟩ := h
  refine ⟨?_, ?_, ?_⟩
  · intro p hp
    rcases List.mem_append.1 hp with hp1 | hp2
    · exact hwk p hp1
    · rw [List.mem_singleton.1 hp2]
  · rw [List.map_append]
    rw [List.nodup_append]
    refine ⟨hnd, List.nodup_singleton _, ?_⟩
    intro a ha hb
    rw [List.map_singleton, List.mem_singleton] at hb
    subst hb
    exact alookup_eq_none_iff.1 habs ha
  · intro l
    rw [idxGet_foldAppend, hix, indexOf_append]

theorem goodQ_save (q : WNQuery) (syns : Synset) (lcnt : Nat) (h : GoodQ q) :
    GoodQ (q.save_synset syns lcnt).1 := by
  rw [WNQuery.save_synset]
  by_cases hemp : syns.isEmptySyn
  · rw [if_pos hemp]
    exact h
  · rw [if_neg hemp]
    by_cases hn : syns.pos = "n"
    · rw [hn]
      rw [show WNQuery.dat q "n" = .ok q.m_ndat from rfl]
      dsimp only
      by_cases hdup : (alookup q.m_ndat syns.wnid).isSome
      · rw [if_pos hdup]
        exact h
      · rw [if_neg hdup]
        rw [show WNQuery.idx q "n" = .ok q.m_nidx from rfl]
        dsimp only
        refine ⟨?_, h.2.1, h.2.2.1, h.2.2.2⟩
        exact goodPos_insert h.1 syns (Option.not_isSome_iff_eq_none.1 hdup)
    · by_cases hv : syns.pos = "v"
      · rw [hv]
        rw [show WNQuery.dat q "v" = .ok q.m_vdat from rfl]
        dsimp only
        by_cases hdup : (alookup q.m_vdat syns.wnid).isSome
        · rw [if_pos hdup]
          exact h
        · rw [if_neg hdup]
          rw [show WNQuery.idx q "v" = .ok q.m_vidx from rfl]
          dsimp only
          refine ⟨h.1, ?_, h.2.2.1, h.2.2.2⟩
          exact goodPos_insert h.2.1 syns (Option.not_isSome_iff_eq_none.1 hdup)
      · by_cases ha : syns.pos = "a"
        · rw [ha]
          rw [show WNQuery.dat q "a" = .ok q.m_adat from rfl]
          dsimp only
          by_cases hdup : (alookup q.m_adat syns.wnid).isSome
          · rw [if_pos hdup]
            exact h
          · rw [if_neg hdup]
            rw [show WNQuery.idx q "a" = .ok q.m_aidx from rfl]
            dsimp only
            refine ⟨h.1, h.2.1, ?_, h.2.2.2⟩
            exact goodPos_insert h.2.2.1 syns (Option.not_isSome_iff_eq_none.1 hdup)
        · by_cases hb : syns.pos = "b"
          · rw [hb]
            rw [show WNQuery.dat q "b" = .ok q.m_bdat from rfl]
            dsimp only
            by_cases hdup : (alookup q.m_bdat syns.wnid).isSome
            · rw [if_pos hdup]
              exact h
            · rw [if_neg hdup]
              rw [show WNQuery.idx q "b" = .ok q.m_bidx from rfl]
              dsimp only
              refine ⟨h.1, h.2.1, h.2.2.1, ?_⟩
              exact goodPos_insert h.2.2.2 syns (Option.not_isSome_iff_eq_none.1 hdup)
          · have hd : q.dat syns.pos =
                .error (.invalidPOS ("Invalid POS '" ++ syns.pos ++ "'")) := by
              rw [WNQuery.dat, if_neg hn, if_neg hv, if_neg ha, if_neg hb]
              rfl
            rw [hd]
            exact h

theorem storeExt_wnid_key {d e : Store} (h : StoreExt d e)
    (hd : ∀ p ∈ d, p.2.wnid = p.1) : ∀ p ∈ e, p.2.wnid = p.1 := by
  induction h with
  | nil => intro p hp; cases hp
  | cons hpq hrest ih =>
      rename_i p q dr er
      intro x hx
      rcases List.mem_cons.1 hx with rfl | hx2
      · rw [hpq.2.1, hpq.1]
        exact hd p (List.mem_cons_self _ _)
      · exact ih (fun r hr => hd r (List.mem_cons_of_mem _ hr)) x hx2

theorem storeExt_indexOf {d e : Store} (h : StoreExt d e) (l : String) :
    indexOf e l = indexOf d l := by
  induction h with
  | nil => rfl
  | cons hpq hrest ih =>
      rename_i p q dr er
      simp only [indexOf, List.flatMap_cons] at ih ⊢
      rw [hpq.2.2.2.2.1, hpq.2.1, ih]

theorem goodPos_storeExt {d e : Store} {ix : Index} (h : GoodPos d ix)
    (hs : StoreExt d e) : GoodPos e ix := by
  obtain ⟨hwk, hnd, hix⟩ := h
  refine ⟨storeExt_wnid_key hs hwk, ?_, ?_⟩
  · rw [storeExt_map_fst hs]
    exact hnd
  · intro l
    rw [storeExt_indexOf hs l]
    exact hix l

theorem goodQ_invert (q : WNQuery) (h : GoodQ q) : GoodQ q.invert_relations.1 :=
  ⟨goodPos_storeExt h.1 (storeExt_inv_rel_pos q.m_ndat),
   goodPos_storeExt h.2.1 (storeExt_inv_rel_pos q.m_vdat),
   goodPos_storeExt h.2.2.1 (storeExt_inv_rel_pos q.m_adat),
   goodPos_storeExt h.2.2.2 (storeExt_inv_rel_pos q.m_bdat)⟩

theorem goodQ_empty : GoodQ ({} : WNQuery) := by
  refine ⟨?_, ?_, ?_, ?_⟩ <;>
    exact ⟨fun p hp => absurd hp (List.not_mem_nil p), List.nodup_nil, fun l => rfl⟩

theorem goodQ_loadAll (records : List (Synset × Nat)) : GoodQ (loadAll records).1 := by
  have hfold : ∀ (rs : List (Synset × Nat)) (acc : WNQuery × List Warning), GoodQ acc.1 →
      GoodQ ((rs.foldl (fun acc r =>
        ((acc.1.save_synset r.1 r.2).1, acc.2 ++ (acc.1.save_synset r.1 r.2).2)) acc)).1 := by
    intro rs
    induction rs with
    | nil => intro acc hacc; exact hacc
    | cons r rest ih =>
        intro acc hacc
        rw [List.foldl_cons]
        exact ih _ (goodQ_save acc.1 r.1 r.2 hacc)
  exact goodQ_invert _ (hfold records ({}, []) goodQ_empty)

theorem goodPos_of_datidx {q : WNQuery} (h : GoodQ q) {pos : String} {d : Store} {ix : Index}
    (hd : q.dat pos = .ok d) (hx : q.idx pos = .ok ix) : GoodPos d ix := by
  by_cases hn : pos = "n"
  · subst hn
    rw [show q.dat "n" = .ok q.m_ndat from rfl] at hd
    rw [show q.idx "n" = .ok q.m_nidx from rfl] at hx
    cases hd
    cases hx
    exact h.1
  · by_cases hv : pos = "v"
    · subst hv
      rw [show q.dat "v" = .ok q.m_vdat from rfl] at hd
      rw [show q.idx "v" = .ok q.m_vidx from rfl] at hx
      cases hd
      cases hx
      exact h.2.1
    · by_cases ha : pos = "a"
      · subst ha
        rw [show q.dat "a" = .ok q.m_adat from rfl] at hd
        rw [show q.idx "a" = .ok q.m_aidx from rfl] at hx
        cases hd
        cases hx
        exact h.2.2.1
      · by_cases hb : pos = "b"
        · subst hb
          rw [show q.dat "b" = .ok q.m_bdat from rfl] at hd
          rw [show q.idx "b" = .ok q.m_bidx from rfl] at hx
          cases hd
          cases hx
          exact h.2.2.2
        · rw [WNQuery.dat, if_neg hn, if_neg hv, if_neg ha, if_neg hb] at hd
          cases hd

theorem lookUpLiteral_ok (q : WNQuery) (pos : String) (d : Store) (ix : Index) (lit : String)
    (hd : q.dat pos = .ok d) (hx : q.idx pos = .ok ix) :
    q.lookUpLiteral lit pos = .ok ((idxGet ix lit).filterMap (fun i => alookup d i)) := by
  rw [WNQuery.lookUpLiteral, hx]
  change (match alookup ix lit with
    | none => (Except.ok [] : Except PyErr (List Synset))
    | some ids => do
        let d2 ← q.dat pos
        Except.ok (ids.filterMap (fun i => alookup d2 i))) = _
  rcases hids : alookup ix lit with _ | ids
  · rw [idxGet, hids]
    rfl
  · rw [hd, idxGet, hids]
    rfl

theorem mem_indexOf {d : Store} {k : String} {s : Synset} (hmem : (k, s) ∈ d) {y : Synonym}
    (hy : y ∈ s.synonyms) {l : String} (hl : y.literal = l) : s.wnid ∈ indexOf d l := by
  rw [indexOf]
  refine List.mem_flatMap.2 ⟨(k, s), hmem, ?_⟩
  refine List.mem_filterMap.2 ⟨y, hy, ?_⟩
  rw [if_pos hl]

theorem senseScanSyn_ok_of_parse {l : String} {n : Int} :
    ∀ {syns : List Synonym}, (∀ y ∈ syns, y.literal = l → (pyInt y.sense).isSome) →
      ∃ b, senseScanSyn syns l n = .ok b := by
  intro syns
  induction syns with
  | nil => intro _; exact ⟨false, rfl⟩
  | cons j rest ih =>
      intro hp
      rw [senseScanSyn]
      by_cases hjl : j.literal = l
      · rw [if_pos hjl]
        have hsome := hp j (List.mem_cons_self _ _) hjl
        rcases hpy : pyInt j.sense with _ | m
        · rw [hpy] at hsome
          cases hsome
        · dsimp only
          by_cases hm : m = n
          · rw [if_pos hm]
            exact ⟨true, rfl⟩
          · rw [if_neg hm]
            exact ih fun y hy => hp y (List.mem_cons_of_mem _ hy)
      · rw [if_neg hjl]
        exact ih fun y hy => hp y (List.mem_cons_of_mem _ hy)

theorem senseScanSyn_ok_true {l : String} {n : Int} :
    ∀ {syns : List Synonym}, (∀ y ∈ syns, y.literal = l → (pyInt y.sense).isSome) →
      (∃ y ∈ syns, y.literal = l ∧ pyInt y.sense = some n) →
      senseScanSyn syns l n = .ok true := by
  intro syns
  induction syns with
  | nil =>
      intro _ hex
      obtain ⟨y, hy, _⟩ := hex
      cases hy
  | cons j rest ih =>
      intro hp hex
      rw [senseScanSyn]
      by_cases hjl : j.literal = l
      · rw [if_pos hjl]
        have hsome := hp j (List.mem_cons_self _ _) hjl
        rcases hpy : pyInt j.sense with _ | m
        · rw [hpy] at hsome
          cases hsome
        · dsimp only
          by_cases hm : m = n
          · rw [if_pos hm]
          · rw [if_neg hm]
            refine ih (fun y hy => hp y (List.mem_cons_of_mem _ hy)) ?_
            obtain ⟨y, hy, hyl, hyn⟩ := hex
            rcases List.mem_cons.1 hy with rfl | hy2
            · rw [hpy] at hyn
              cases hyn
              exact absurd rfl hm
            · exact ⟨y, hy2, hyl, hyn⟩
      · rw [if_neg hjl]
        refine ih (fun y hy => hp y (List.mem_cons_of_mem _ hy)) ?_
        obtain ⟨y, hy, hyl, hyn⟩ := hex
        rcases List.mem_cons.1 hy with rfl | hy2
        · exact absurd hyl hjl
        · exact ⟨y, hy2, hyl, hyn⟩

theorem senseScanSyn_true_imp {l : String} {n : Int} :
    ∀ {syns : List Synonym}, senseScanSyn syns l n = .ok true →
      ∃ y ∈ syns, y.literal = l ∧ pyInt y.sense = some n := by
  intro syns
  induction syns with
  | nil => intro h; cases h
  | cons j rest ih =>
      intro h
      rw [senseScanSyn] at h
      by_cases hjl : j.literal = l
      · rw [if_pos hjl] at h
        rcases hpy : pyInt j.sense with _ | m
        · rw [hpy] at h
          cases h
        · rw [hpy] at h
          dsimp only at h
          by_cases hm : m = n
          · exact ⟨j, List.mem_cons_self _ _, hjl, by rw [hpy, hm]⟩
          · rw [if_neg hm] at h
            obtain ⟨y, hy, hyl, hyn⟩ := ih h
            exact ⟨y, List.mem_cons_of_mem _ hy, hyl, hyn⟩
      · rw [if_neg hjl] at h
        obtain ⟨y, hy, hyl, hyn⟩ := ih h
        exact ⟨y, List.mem_cons_of_mem _ hy, hyl, hyn⟩

theorem senseScan_finds {l : String} {n : Int} {s : Synset} :
    ∀ {res : List Synset}, s ∈ res →
      (∀ s2 ∈ res, ∀ y ∈ s2.synonyms, y.literal = l → (pyInt y.sense).isSome) →
      (∀ s2 ∈ res, (∃ y ∈ s2.synonyms, y.literal = l ∧ pyInt y.sense = some n) → s2 = s) →
      (∃ y ∈ s.synonyms, y.literal = l ∧ pyInt y.sense = some n) →
      senseScan res l n = .ok (some s) := by
  intro res
  induction res with
  | nil => intro hmem; cases hmem
  | cons i rest ih =>
      intro hmem hall huniq hs
      rw [senseScan]
      obtain ⟨b, hb⟩ := senseScanSyn_ok_of_parse (hall i (List.mem_cons_self _ _))
      rw [hb]
      cases b
      · dsimp only
        refine ih ?_ (fun s2 h2 => hall s2 (List.mem_cons_of_mem _ h2))
          (fun s2 h2 => huniq s2 (List.mem_cons_of_mem _ h2)) hs
        rcases List.mem_cons.1 hmem with rfl | hmem2
        · exact absurd ((senseScanSyn_ok_true (hall s (List.mem_cons_self _ _)) hs).symm.trans hb)
            (by simp)
        · exact hmem2
      · dsimp only
        rw [huniq i (List.mem_cons_self _ _) (senseScanSyn_true_imp hb)]

/-- C5: after a full load (insertions in document order followed by
the relation-inversion pass) the literal index of every POS store
holds exactly the literal-to-id mappings implied by the stored
synsets' synonym lists (one entry per synonym occurrence, in insertion
order); consequently every stored synset is in the literal-lookup
result of each of its synonym literals, and `lookUpSense` returns the
synset of a word sense that is unique within the POS (provided the
sense strings of that literal parse as integers, which the code's
`int(...)` calls require). -/
theorem claim_C5 (records : List (Synset × Nat)) (pos : String) (d : Store) (ix : Index)
    (hd : (loadAll records).1.dat pos = .ok d)
    (hx : (loadAll records).1.idx pos = .ok ix) :
    (∀ l, idxGet ix l = indexOf d l) ∧
    (∀ wnid s, alookup d wnid = some s → ∀ y ∈ s.synonyms,
      ∃ res, (loadAll records).1.lookUpLiteral y.literal pos = .ok res ∧ s ∈ res) ∧
    (∀ wnid s y n, alookup d wnid = some s → y ∈ s.synonyms →
      pyInt y.sense = some n → SensesParse d y.literal → UniqueSense d y.literal n wnid →
      (loadAll records).1.lookUpSense y.literal n pos = .ok (some s)) := by
  have hq := goodQ_loadAll records
  have hgp := goodPos_of_datidx hq hd hx
  obtain ⟨hwk, hnd, hix⟩ := hgp
  have hmemres : ∀ wnid s, alookup d wnid = some s → ∀ y ∈ s.synonyms,
      s ∈ (idxGet ix y.literal).filterMap (fun i => alookup d i) := by
    intro wnid s hs y hy
    have hwn : s.wnid = wnid := hwk (wnid, s) (alookup_mem hs)
    refine List.mem_filterMap.2 ⟨s.wnid, ?_, ?_⟩
    · rw [hix]
      exact mem_indexOf (alookup_mem hs) hy rfl
    · rw [hwn]
      exact hs
  refine ⟨hix, ?_, ?_⟩
  · intro wnid s hs y hy
    exact ⟨_, lookUpLiteral_ok _ pos d ix y.literal hd hx, hmemres wnid s hs y hy⟩
  · intro wnid s y n hs hy hpy hparse huniq
    rw [WNQuery.lookUpSense, lookUpLiteral_ok _ pos d ix y.literal hd hx]
    change senseScan ((idxGet ix y.literal).filterMap (fun i => alookup d i)) y.literal n = _
    have hfrom : ∀ s2 ∈ (idxGet ix y.literal).filterMap (fun i => alookup d i),
        ∃ i, alookup d i = some s2 := by
      intro s2 h2
      obtain ⟨i, _, hi⟩ := List.mem_filterMap.1 h2
      exact ⟨i, hi⟩
    refine senseScan_finds (hmemres wnid s hs y hy) ?_ ?_ ⟨y, hy, rfl, hpy⟩
    · intro s2 h2 y2 hy2 hl2
      obtain ⟨i, hi⟩ := hfrom s2 h2
      exact hparse (i, s2) (alookup_mem hi) y2 hy2 hl2
    · intro s2 h2 hex2
      obtain ⟨i, hi⟩ := hfrom s2 h2
      obtain ⟨y2, hy2, hl2, hn2⟩ := hex2
      have hiw : i = wnid := huniq (i, s2) (alookup_mem hi) y2 hy2 hl2 hn2
      rw [hiw] at hi
      rw [hi] at hs
      cases hs
      rfl

/-- Witness for C5 on the two-record load input `exRecs`. -/
theorem claim_C5_witness :
    (loadAll exRecs).1.dat "n" = .ok (loadAll exRecs).1.m_ndat ∧
      (loadAll exRecs).1.idx "n" = .ok (loadAll exRecs).1.m_nidx ∧
      ((∀ l, idxGet (loadAll exRecs).1.m_nidx l = indexOf (loadAll exRecs).1.m_ndat l) ∧
        (∀ wnid s, alookup (loadAll exRecs).1.m_ndat wnid = some s → ∀ y ∈ s.synonyms,
          ∃ res, (loadAll exRecs).1.lookUpLiteral y.literal "n" = .ok res ∧ s ∈ res) ∧
        (∀ wnid s y n, alookup (loadAll exRecs).1.m_ndat wnid = some s → y ∈ s.synonyms →
          pyInt y.sense = some n → SensesParse (loadAll exRecs).1.m_ndat y.literal →
          UniqueSense (loadAll exRecs).1.m_ndat y.literal n wnid →
          (loadAll exRecs).1.lookUpSense y.literal n "n" = .ok (some s))) :=
  ⟨rfl, rfl,
   claim_C5 exRecs "n" (loadAll exRecs).1.m_ndat (loadAll exRecs).1.m_nidx rfl rfl⟩

end WNV

